import Mathlib

/-!
# Worker pool (`pool/options.go`, `pool/pool.go`)

A shallow embedding of the bounded worker pool: the option builders, the
constructor `NewWorkerPool`, and the lifecycle `Start` / worker / `Stop` as a
labelled transition system over an explicit state (channel heap, goroutine
table, wait-group counter and a trace of hook and work-function calls).

Conventions of the embedding.

* A Go function value is a tag (`Nat`); a possibly nil function value is an
  `Option` of a tag.  Calling a hook or the work function appends an event to
  the trace; the callee is assumed to return and not to touch the pool.
* Go `int` is `Int`; `intSize` (32 or 64) is the width of the platform's `int`,
  `uint64` is a `Nat` below `2 ^ 64`.
* `sync.WaitGroup` is its counter, a signed 32-bit integer as in the standard
  library: `Add` adds with wrap-around to 32 bits and faults when the result
  is negative, `Wait` blocks until the counter is 0.  Waiters are not
  modelled: the pool calls `Add` with a positive delta only in
  `NewWorkerPool`, before any `Wait`.
* Channels follow the Go language specification: a send blocks while the
  buffer is full unless a receiver is waiting, a receive on a closed channel
  drains the buffer first, closing a nil or a closed channel faults.
  `make(chan T, n)` faults when `n` is negative or above `maxChanCap`, the
  largest capacity the runtime accepts for the element type `T` on the
  platform; `maxChanCap` is a parameter of the embedding.
* `Start` is one step of the caller; the goroutines it launches stand at the
  entry of `worker` and move when the scheduler picks them.
-/

namespace WorkerPools

/-! ## Data model -/

/-- Tag of a non-nil `PrePostWorkFunc` value. -/
abbrev PrePostWorkFunc := Nat

/-- Tag of a non-nil `WorkFunc[T]` value. -/
abbrev WorkFunc := Nat

/-- Run-time faults (Go panics) that the pool can raise. -/
inductive Fault where
  | negativeWaitGroup
  | closeNilChan
  | closeClosedChan
  | sendClosedChan
  | makeChanSize
  | nilFuncCall
  deriving DecidableEq, Repr

/-- The struct `WorkerPool[T]`.  `workChan` is `none` for a nil channel and
otherwise the address of a channel in the heap; `wg` is the counter of the
`sync.WaitGroup` the pool points to. -/
structure WorkerPool where
  preworkFunc : Option PrePostWorkFunc
  postworkFunc : Option PrePostWorkFunc
  workFunc : Option WorkFunc
  poolSize : Int
  workChan : Option Nat
  workChanBuffer : Int
  wg : Int
  deriving DecidableEq, Repr

/-- The type `PoolOption[T]`: a function that mutates the pool or returns an error. -/
abbrev PoolOption := WorkerPool → Except String WorkerPool

/-- The constant `DefaultPoolSize`. -/
def DefaultPoolSize : Int := 25

/-- The constant `math.MaxInt` on a platform whose `int` has `intSize` bits. -/
def MaxInt (intSize : Nat) : Int := 2 ^ (intSize - 1) - 1

/-- The conversion `int(n)` of an unsigned value: two's complement wrap-around
to `intSize` bits. -/
def toInt (intSize : Nat) (n : Nat) : Int :=
  let m := n % 2 ^ intSize
  if m < 2 ^ (intSize - 1) then (m : Int) else (m : Int) - 2 ^ intSize

/-- The verb `%d` of `fmt.Errorf` on an integer. -/
def fmtInt (i : Int) : String := toString i

/-! ## `options.go` -/

/-- The option `WithPreworkFunc(f)`. -/
def WithPreworkFunc (f : Option PrePostWorkFunc) : PoolOption :=
  fun wp => .ok { wp with preworkFunc := f }

/-- The option `WithPostWorkFunc(f)`. -/
def WithPostWorkFunc (f : Option PrePostWorkFunc) : PoolOption :=
  fun wp => .ok { wp with postworkFunc := f }

/-- The option `WithPoolSize(size)`. -/
def WithPoolSize (size : Int) : PoolOption :=
  fun wp =>
    if size < 1 then
      .error ("pool size " ++ fmtInt size ++ " cannot be less than 1")
    else
      .ok { wp with poolSize := size }

/-- The option `WithWorkChannelBuffer(n)`. -/
def WithWorkChannelBuffer (intSize : Nat) (n : Nat) : PoolOption :=
  fun wp =>
    if (n : Int) > MaxInt intSize then
      .error ("buffer cannot be larger than " ++ fmtInt (MaxInt intSize))
    else
      .ok { wp with workChanBuffer := toInt intSize n }

/-! ## `pool.go`: construction -/

/-- The conversion `int32(x)`: two's complement wrap-around to 32 bits. -/
def toInt32 (x : Int) : Int :=
  (x + 2147483648) % 4294967296 - 2147483648

/-- The method `(*sync.WaitGroup).Add`, on the counter: the delta is added to
the 32-bit counter with wrap-around, and a negative result faults. -/
def WaitGroup.Add (counter delta : Int) : Except Fault Int :=
  let v := toInt32 (counter + delta)
  if v < 0 then .error .negativeWaitGroup else .ok v

/-- The loop `for _, opt := range options` of `NewWorkerPool`: the options are
applied in order and the first error ends the loop. -/
def applyOptions : List PoolOption → WorkerPool → Except String WorkerPool
  | [], pool => .ok pool
  | opt :: rest, pool =>
    match opt pool with
    | .error err => .error err
    | .ok pool => applyOptions rest pool

/-- What a call of `NewWorkerPool` does: return `(pool, nil)`, return
`(nil, err)`, or fault. -/
inductive Construction where
  | pool (p : WorkerPool)
  | error (err : String)
  | fault (f : Fault)
  deriving DecidableEq, Repr

/-- The function `NewWorkerPool(workFunc, options...)`. -/
def NewWorkerPool (workFunc : Option WorkFunc) (options : List PoolOption) : Construction :=
  let pool : WorkerPool :=
    { preworkFunc := none
      postworkFunc := none
      workFunc := workFunc
      poolSize := DefaultPoolSize
      workChan := none
      workChanBuffer := 1
      wg := 0 }
  match applyOptions options pool with
  | .error err => .error err
  | .ok pool =>
    match WaitGroup.Add pool.wg pool.poolSize with
    | .error f => .fault f
    | .ok c => .pool { pool with wg := c }

/-- A call of one of the four option builders of `options.go`, as data. -/
inductive OptionCall where
  | withPreworkFunc (f : Option PrePostWorkFunc)
  | withPostWorkFunc (f : Option PrePostWorkFunc)
  | withPoolSize (size : Int)
  | withWorkChannelBuffer (n : Nat)
  deriving DecidableEq, Repr

/-- The option a builder call evaluates to. -/
def OptionCall.build (intSize : Nat) : OptionCall → PoolOption
  | .withPreworkFunc f => WithPreworkFunc f
  | .withPostWorkFunc f => WithPostWorkFunc f
  | .withPoolSize size => WithPoolSize size
  | .withWorkChannelBuffer n => WithWorkChannelBuffer intSize n

/-- A builder call whose argument passes the builder's validation. -/
def OptionCall.Valid (intSize : Nat) : OptionCall → Prop
  | .withPreworkFunc _ => True
  | .withPostWorkFunc _ => True
  | .withPoolSize size => 1 ≤ size
  | .withWorkChannelBuffer n => (n : Int) ≤ MaxInt intSize

/-! ## `pool.go`: the running pool -/

/-- A channel `chan T` of the heap. -/
structure Chan (T : Type) where
  cap : Nat
  buf : List T
  closed : Bool
  deriving DecidableEq, Repr

/-- Where a goroutine running `worker` stands. -/
inductive WorkerPc (T : Type) where
  /-- launched; `defer w.wg.Done()` is registered, next is `if w.preworkFunc != nil`. -/
  | entry
  /-- next is the evaluation of `w.workChan` in `for t := range w.workChan`. -/
  | ranging
  /-- in the loop on channel `c`, waiting for the next item or for the close. -/
  | receiving (c : Nat)
  /-- item `t` received from channel `c`, next is `w.workFunc(ctx, t)`. -/
  | working (c : Nat) (t : T)
  /-- the loop has ended, next is `if w.postworkFunc != nil`. -/
  | leaving
  /-- the body has finished, the deferred `w.wg.Done()` is pending. -/
  | deferred
  /-- the goroutine has ended. -/
  | exited
  deriving DecidableEq, Repr

/-- The calls a worker makes, as recorded in the trace. -/
inductive Event (T : Type) where
  /-- worker `worker` called `w.preworkFunc(ctx)`. -/
  | prework (worker : Nat)
  /-- worker `worker` called `w.workFunc(ctx, t)`. -/
  | work (worker : Nat) (t : T)
  /-- worker `worker` called `w.postworkFunc(ctx)`. -/
  | postwork (worker : Nat)
  /-- worker `worker` called `w.wg.Done()`. -/
  | done (worker : Nat)
  deriving DecidableEq, Repr

/-- The state of a program that owns one pool: the pool, the channels made so
far, the worker goroutines launched so far, the trace of their calls (newest
first) and the fault that stopped the program, if any. -/
structure State (T : Type) where
  pool : WorkerPool
  chans : List (Chan T)
  workers : List (WorkerPc T)
  trace : List (Event T)
  crashed : Option Fault
  deriving DecidableEq, Repr

variable {T : Type}

/-- The program stops with fault `f`. -/
def State.crash (s : State T) (f : Fault) : State T :=
  { s with crashed := some f }

/-- The method `Start`: `make(chan T, w.workChanBuffer)`, which faults for a
capacity that is negative or above `maxChanCap`, the loop
`for range w.poolSize { go w.worker(ctx) }`, and the channel returned.  Every
goroutine launched stands at `entry`; it runs when the scheduler picks it. -/
def Start (maxChanCap : Nat) (s : State T) : State T × Nat :=
  let c := s.chans.length
  if s.pool.workChanBuffer < 0 ∨ (maxChanCap : Int) < s.pool.workChanBuffer then
    (s.crash .makeChanSize, c)
  else
    ({ s with
        pool := { s.pool with workChan := some c }
        chans := s.chans ++ [{ cap := s.pool.workChanBuffer.toNat, buf := [], closed := false }]
        workers := s.workers ++ List.replicate s.pool.poolSize.toNat WorkerPc.entry },
     c)

/-- The statement `close(w.workChan)` of `Stop`. -/
def closeWorkChan (s : State T) : State T :=
  match s.pool.workChan with
  | none => s.crash .closeNilChan
  | some c =>
    match s.chans[c]? with
    | none => s.crash .closeNilChan
    | some ch =>
      if ch.closed then s.crash .closeClosedChan
      else { s with chans := s.chans.set c { ch with closed := true } }

/-- The statement `w.wg.Wait()` of `Stop` returns exactly when the counter is 0. -/
def waitReturns (s : State T) : Bool :=
  decide (s.pool.wg = 0)

/-- The method `Stop` run in one piece: the state after `close(w.workChan)`
and whether the call returns there (`true`) or faults or blocks in `Wait`
(`false`). -/
def Stop (s : State T) : State T × Bool :=
  let s1 := closeWorkChan s
  (s1, s1.crashed.isNone && waitReturns s1)

/-- The send `wc <- t` on channel `c` completing through the buffer; `none`
while the buffer is full.  A send on a closed channel faults. -/
def sendBuffered (c : Nat) (t : T) (s : State T) : Option (State T) :=
  match s.chans[c]? with
  | none => none
  | some ch =>
    if ch.closed then some (s.crash .sendClosedChan)
    else if ch.buf.length < ch.cap then
      some { s with chans := s.chans.set c { ch with buf := ch.buf ++ [t] } }
    else none

/-- The send `wc <- t` on channel `c` completing by handing `t` to worker `i`,
which waits in its receive on `c` while the buffer is empty. -/
def sendDirect (c : Nat) (t : T) (i : Nat) (s : State T) : Option (State T) :=
  match s.chans[c]?, s.workers[i]? with
  | some ch, some (WorkerPc.receiving c') =>
    if c' = c ∧ ch.closed = false ∧ ch.buf.length = 0 then
      some { s with workers := s.workers.set i (.working c t) }
    else none
  | _, _ => none

/-- One step of the goroutine `i` running `worker`; `none` when the goroutine
is blocked or has ended. -/
def workerStep (i : Nat) (s : State T) : Option (State T) :=
  match s.workers[i]? with
  | none => none
  | some .entry =>
    match s.pool.preworkFunc with
    | some _ => some { s with workers := s.workers.set i .ranging, trace := .prework i :: s.trace }
    | none => some { s with workers := s.workers.set i .ranging }
  | some .ranging =>
    match s.pool.workChan with
    | none => none
    | some c => some { s with workers := s.workers.set i (.receiving c) }
  | some (.receiving c) =>
    match s.chans[c]? with
    | none => none
    | some ch =>
      match ch.buf with
      | t :: rest =>
        some { s with
                chans := s.chans.set c { ch with buf := rest }
                workers := s.workers.set i (.working c t) }
      | [] =>
        if ch.closed then some { s with workers := s.workers.set i .leaving }
        else none
  | some (.working c t) =>
    match s.pool.workFunc with
    | none => some (s.crash .nilFuncCall)
    | some _ => some { s with workers := s.workers.set i (.receiving c), trace := .work i t :: s.trace }
  | some .leaving =>
    match s.pool.postworkFunc with
    | some _ => some { s with workers := s.workers.set i .deferred, trace := .postwork i :: s.trace }
    | none => some { s with workers := s.workers.set i .deferred }
  | some .deferred =>
    match WaitGroup.Add s.pool.wg (-1) with
    | .error f => some (s.crash f)
    | .ok n =>
      some { s with
              pool := { s.pool with wg := n }
              workers := s.workers.set i .exited
              trace := .done i :: s.trace }
  | some .exited => none

/-! ## The lifecycle: `Start`, submit every item, `Stop` -/

/-- Where the caller of the pool stands in
`wc := p.Start(ctx); for _, t := range items { wc <- t }; p.Stop()`. -/
inductive CallerPc where
  /-- the pool is constructed, next is `Start`. -/
  | created
  /-- `Start` has returned `wc`, `k` items have been submitted. -/
  | submitting (wc : Nat) (k : Nat)
  /-- inside `Stop`: the channel is closed, `Wait` has not returned. -/
  | stopping
  /-- `Stop` has returned. -/
  | stopped
  deriving DecidableEq, Repr

/-- The caller together with the program state. -/
structure Run (T : Type) where
  caller : CallerPc
  sys : State T
  deriving DecidableEq, Repr

/-- The scheduler's choices. -/
inductive Action where
  /-- the caller's next statement completes on its own. -/
  | caller
  /-- the caller's pending send completes by handing the item to worker `i`. -/
  | handoff (i : Nat)
  /-- worker `i` takes its next step. -/
  | worker (i : Nat)
  deriving DecidableEq, Repr

/-- The caller's next statement, completing without a rendezvous. -/
def callerStep (maxChanCap : Nat) (items : List T) (r : Run T) : Option (Run T) :=
  match r.caller with
  | .created =>
    let (s, wc) := Start maxChanCap r.sys
    if s.crashed.isSome then some { r with sys := s }
    else some { caller := .submitting wc 0, sys := s }
  | .submitting wc k =>
    match items[k]? with
    | some t =>
      match sendBuffered wc t r.sys with
      | none => none
      | some s =>
        if s.crashed.isSome then some { r with sys := s }
        else some { caller := .submitting wc (k + 1), sys := s }
    | none =>
      let s := closeWorkChan r.sys
      if s.crashed.isSome then some { r with sys := s }
      else some { caller := .stopping, sys := s }
  | .stopping =>
    if waitReturns r.sys then some { r with caller := .stopped } else none
  | .stopped => none

/-- The caller's pending send completing by rendezvous with worker `i`. -/
def handoffStep (items : List T) (i : Nat) (r : Run T) : Option (Run T) :=
  match r.caller with
  | .submitting wc k =>
    match items[k]? with
    | some t =>
      match sendDirect wc t i r.sys with
      | none => none
      | some s => some { caller := .submitting wc (k + 1), sys := s }
    | none => none
  | _ => none

/-- One step of the program under the scheduler's choice; `none` when the
chosen goroutine cannot move.  A crashed program takes no step. -/
def step (maxChanCap : Nat) (items : List T) (a : Action) (r : Run T) : Option (Run T) :=
  if r.sys.crashed.isSome then none
  else
    match a with
    | .caller => callerStep maxChanCap items r
    | .handoff i => handoffStep items i r
    | .worker i => (workerStep i r.sys).map (fun s => { r with sys := s })

/-- A schedule run from `r`; `none` when one of its choices cannot move. -/
def exec (maxChanCap : Nat) (items : List T) : List Action → Run T → Option (Run T)
  | [], r => some r
  | a :: rest, r =>
    match step maxChanCap items a r with
    | none => none
    | some r1 => exec maxChanCap items rest r1

/-- The program right after `NewWorkerPool` returned `p`. -/
def boot (p : WorkerPool) : Run T :=
  { caller := .created
    sys := { pool := p, chans := [], workers := [], trace := [], crashed := none } }

/-! ## Reading the trace -/

/-- The workers that called the pre-work hook, newest call first. -/
def preworkers : List (Event T) → List Nat
  | [] => []
  | .prework i :: rest => i :: preworkers rest
  | _ :: rest => preworkers rest

/-- The workers that called the post-work hook, newest call first. -/
def postworkers : List (Event T) → List Nat
  | [] => []
  | .postwork i :: rest => i :: postworkers rest
  | _ :: rest => postworkers rest

/-- The workers that called `wg.Done`, newest call first. -/
def doners : List (Event T) → List Nat
  | [] => []
  | .done i :: rest => i :: doners rest
  | _ :: rest => doners rest

/-- The items the work function was called on, newest call first. -/
def worked : List (Event T) → List T
  | [] => []
  | .work _ t :: rest => t :: worked rest
  | _ :: rest => worked rest

/-- The item a worker holds between its receive and its call of the work function. -/
def heldBy : WorkerPc T → List T
  | .working _ t => [t]
  | _ => []

/-- The order of each worker's calls in a trace (newest first): with
`pre` / `post` telling whether the hooks are set, a call of the work function
comes after the worker's pre-work call and before its post-work call and its
`Done`, a post-work call comes before the `Done`, and a `Done` comes after
the post-work call. -/
def Ordered (pre post : Bool) : List (Event T) → Prop
  | [] => True
  | .prework _ :: rest => Ordered pre post rest
  | .work i _ :: rest =>
    (pre = true → i ∈ preworkers rest) ∧ i ∉ postworkers rest ∧ i ∉ doners rest ∧
      Ordered pre post rest
  | .postwork i :: rest => i ∉ doners rest ∧ Ordered pre post rest
  | .done i :: rest => (post = true → i ∈ postworkers rest) ∧ Ordered pre post rest

/-! ## Reading the goroutine table -/

/-- The worker is past the pre-work hook. -/
def WorkerPc.pastEntry : WorkerPc T → Bool
  | .entry => false
  | _ => true

/-- The worker has left its receive loop. -/
def WorkerPc.pastLoop : WorkerPc T → Bool
  | .leaving => true
  | .deferred => true
  | .exited => true
  | _ => false

/-- The worker is past the post-work hook. -/
def WorkerPc.pastPost : WorkerPc T → Bool
  | .deferred => true
  | .exited => true
  | _ => false

/-- The worker goroutine has ended. -/
def WorkerPc.isExited : WorkerPc T → Bool
  | .exited => true
  | _ => false

/-- The worker, when in its loop, receives from channel 0. -/
def WorkerPc.onFirstChan : WorkerPc T → Prop
  | .receiving c => c = 0
  | .working c _ => c = 0
  | _ => True

/-- 1 for a goroutine that has not ended. -/
def WorkerPc.alive (w : WorkerPc T) : Nat :=
  if w.isExited then 0 else 1

/-- The number of worker goroutines launched and not yet ended. -/
def live (ws : List (WorkerPc T)) : Nat :=
  (ws.map WorkerPc.alive).sum

/-- The items held by workers between receive and work-function call. -/
def held : List (WorkerPc T) → List T
  | [] => []
  | w :: ws => heldBy w ++ held ws

/-- Worker `i` exists and satisfies `P`. -/
def At (P : WorkerPc T → Bool) (ws : List (WorkerPc T)) (i : Nat) : Prop :=
  ∃ w, ws[i]? = some w ∧ P w = true

/-- The items the caller has submitted so far. -/
def submitted (items : List T) : CallerPc → List T
  | .created => []
  | .submitting _ k => items.take k
  | .stopping => items
  | .stopped => items

/-- An upper bound on the steps a worker still takes, items apart. -/
def WorkerPc.rank : WorkerPc T → Nat
  | .entry => 6
  | .ranging => 5
  | .working _ _ => 4
  | .receiving _ => 3
  | .leaving => 2
  | .deferred => 1
  | .exited => 0

/-- An upper bound on the steps the caller still takes, times 3 per item. -/
def CallerPc.rank (m : Nat) : CallerPc → Nat
  | .created => 3 * m + 3
  | .submitting _ k => 3 * (m - k) + 2
  | .stopping => 1
  | .stopped => 0

/-- A started lifecycle seen through its caller, its one channel, its workers
and its trace. -/
def running (p : WorkerPool) (caller : CallerPc) (ch : Chan T) (ws : List (WorkerPc T))
    (tr : List (Event T)) : Run T :=
  { caller := caller
    sys :=
      { pool := { p with workChan := some 0, wg := (live ws : Int) }
        chans := [ch]
        workers := ws
        trace := tr
        crashed := none } }

/-- The variant of a started lifecycle: every step makes it smaller. -/
def variant (m : Nat) (caller : CallerPc) (ch : Chan T) (ws : List (WorkerPc T)) : Nat :=
  caller.rank m + (ws.map WorkerPc.rank).sum + 2 * ch.buf.length

/-- What the caller's position says about the channel and the workers. -/
def PhaseOk (items : List T) (ch : Chan T) (ws : List (WorkerPc T)) : CallerPc → Prop
  | .created => False
  | .submitting wc k => wc = 0 ∧ k ≤ items.length ∧ ch.closed = false
  | .stopping => ch.closed = true
  | .stopped => ch.closed = true ∧ live ws = 0

/-- What the channel must look like for a worker at `w`: the worker loops on
channel 0, and once it has left the loop the channel is closed and empty. -/
def WorkerOk (ch : Chan T) (w : WorkerPc T) : Prop :=
  w.onFirstChan ∧ (w.pastLoop = true → ch.buf = [] ∧ ch.closed = true)

/-- The calls of one kind in the trace, read by `proj`, are made once each and
by exactly the workers that are at a position satisfying `P`, when the call is
enabled (`en`), and by nobody otherwise. -/
def TraceInv (proj : List (Event T) → List Nat) (en : Bool) (P : WorkerPc T → Bool)
    (ws : List (WorkerPc T)) (tr : List (Event T)) : Prop :=
  (proj tr).Nodup ∧ ∀ i, i ∈ proj tr ↔ en = true ∧ At P ws i

/-- The invariant of a started lifecycle of the pool `p` fed with `items`. -/
structure Good (p : WorkerPool) (items : List T) (caller : CallerPc) (ch : Chan T)
    (ws : List (WorkerPc T)) (tr : List (Event T)) : Prop where
  len : ws.length = p.poolSize.toNat
  ok : ∀ w ∈ ws, WorkerOk ch w
  phase : PhaseOk items ch ws caller
  perm : (submitted items caller).Perm (ch.buf ++ (held ws ++ worked tr))
  pre : TraceInv preworkers p.preworkFunc.isSome WorkerPc.pastEntry ws tr
  post : TraceInv postworkers p.postworkFunc.isSome WorkerPc.pastPost ws tr
  done : TraceInv doners true WorkerPc.isExited ws tr
  ordered : Ordered p.preworkFunc.isSome p.postworkFunc.isSome tr

/-- The program after a `Start` that faulted in `make`. -/
def refused (p : WorkerPool) : Run T :=
  { caller := .created
    sys := { pool := p, chans := [], workers := [], trace := [], crashed := some .makeChanSize } }

/-- The invariant of the lifecycle: not started yet, stopped by the fault of
`make`, or started and good. -/
def Inv (p : WorkerPool) (items : List T) (r : Run T) : Prop :=
  r = boot p ∨ r = refused p ∨
    ∃ caller ch ws tr, r = running p caller ch ws tr ∧ Good p items caller ch ws tr

/-- What the caller's position says about the pool's channel, for every
constructed pool: before `Start` has succeeded there is no channel; after it
the pool points at channel 0, the only one, which is closed once `Stop` has
closed it, and its capacity was accepted by `make`. -/
def Wired (maxChanCap : Nat) (p : WorkerPool) (r : Run T) : Prop :=
  r.sys.pool.workChanBuffer = p.workChanBuffer ∧ r.sys.pool.poolSize = p.poolSize ∧
  match r.caller with
  | .created => r.sys.chans = [] ∧ r.sys.pool.workChan = p.workChan
  | .submitting wc _ =>
    wc = 0 ∧ r.sys.pool.workChan = some 0 ∧ (∃ ch, r.sys.chans = [ch]) ∧
      0 ≤ p.workChanBuffer ∧ p.workChanBuffer ≤ (maxChanCap : Int)
  | .stopping =>
    r.sys.pool.workChan = some 0 ∧ (∃ ch, r.sys.chans = [ch] ∧ ch.closed = true) ∧
      0 ≤ p.workChanBuffer ∧ p.workChanBuffer ≤ (maxChanCap : Int)
  | .stopped =>
    r.sys.pool.workChan = some 0 ∧ (∃ ch, r.sys.chans = [ch] ∧ ch.closed = true) ∧
      0 ≤ p.workChanBuffer ∧ p.workChanBuffer ≤ (maxChanCap : Int)

/-- What the lifecycle needs of a constructed pool: a work function, at least
one worker and no more than the 32-bit counter can count, a capacity that is
not negative, and the counter at the worker count. -/
structure Ready (p : WorkerPool) : Prop where
  workFunc : p.workFunc.isSome = true
  size : 1 ≤ p.poolSize
  fit : p.poolSize < 2147483648
  buffer : 0 ≤ p.workChanBuffer
  wg : p.wg = p.poolSize

/-! ## The specification's reading of the options -/

/-- Stated from the specification (last write wins): the value given by the
last option of the list that sets a setting, `sel` telling which options set
it and to what, or the default when no option sets it. -/
def lastSetting {α : Type} (sel : OptionCall → Option α) (dflt : α)
    (opts : List OptionCall) : α :=
  ((opts.filterMap sel).getLast?).getD dflt

/-- The pre-work hook an option sets. -/
def OptionCall.setsPrework : OptionCall → Option (Option PrePostWorkFunc)
  | .withPreworkFunc f => some f
  | _ => none

/-- The post-work hook an option sets. -/
def OptionCall.setsPostwork : OptionCall → Option (Option PrePostWorkFunc)
  | .withPostWorkFunc f => some f
  | _ => none

/-- The worker count an option sets. -/
def OptionCall.setsPoolSize : OptionCall → Option Int
  | .withPoolSize size => some size
  | _ => none

/-- The queue capacity an option sets. -/
def OptionCall.setsBuffer : OptionCall → Option Int
  | .withWorkChannelBuffer n => some (n : Int)
  | _ => none

/-! ## Construction: lemmas -/

theorem toInt_of_le_maxInt (intSize n : Nat) (h : (n : Int) ≤ MaxInt intSize) :
    toInt intSize n = (n : Int) := by
  unfold MaxInt at h
  have h1 : n < 2 ^ (intSize - 1) := by
    have : (n : Int) < ((2 ^ (intSize - 1) : Nat) : Int) := by push_cast; omega
    exact_mod_cast this
  have h2 : 2 ^ (intSize - 1) ≤ 2 ^ intSize :=
    Nat.pow_le_pow_right (by decide) (Nat.sub_le _ _)
  have h3 : n % 2 ^ intSize = n := Nat.mod_eq_of_lt (lt_of_lt_of_le h1 h2)
  simp only [toInt, h3]
  rw [if_pos h1]

theorem applyOptions_append (xs ys : List PoolOption) (pool : WorkerPool) :
    applyOptions (xs ++ ys) pool =
      match applyOptions xs pool with
      | .error err => .error err
      | .ok pool1 => applyOptions ys pool1 := by
  induction xs generalizing pool with
  | nil => rfl
  | cons opt rest ih =>
    simp only [List.cons_append, applyOptions]
    cases opt pool with
    | error err => rfl
    | ok pool1 => exact ih pool1

/-- A valid builder call applied to a pool succeeds and changes its own setting only. -/
theorem build_valid (intSize : Nat) (o : OptionCall) (h : o.Valid intSize) (pool : WorkerPool) :
    o.build intSize pool = .ok
      { pool with
        preworkFunc := (o.setsPrework).getD pool.preworkFunc
        postworkFunc := (o.setsPostwork).getD pool.postworkFunc
        poolSize := (o.setsPoolSize).getD pool.poolSize
        workChanBuffer := (o.setsBuffer).getD pool.workChanBuffer } := by
  cases o with
  | withPreworkFunc f => rfl
  | withPostWorkFunc f => rfl
  | withPoolSize size =>
    have h1 : ¬ size < 1 := not_lt.mpr h
    simp [OptionCall.build, WithPoolSize, h1, OptionCall.setsPrework, OptionCall.setsPostwork,
      OptionCall.setsPoolSize, OptionCall.setsBuffer]
  | withWorkChannelBuffer n =>
    have h1 : ¬ (n : Int) > MaxInt intSize := not_lt.mpr h
    simp [OptionCall.build, WithWorkChannelBuffer, h1, OptionCall.setsPrework,
      OptionCall.setsPostwork, OptionCall.setsPoolSize, OptionCall.setsBuffer,
      toInt_of_le_maxInt intSize n h]

theorem lastSetting_nil {α : Type} (sel : OptionCall → Option α) (dflt : α) :
    lastSetting sel dflt [] = dflt := rfl

theorem lastSetting_snoc {α : Type} (sel : OptionCall → Option α) (dflt : α)
    (opts : List OptionCall) (o : OptionCall) :
    lastSetting sel dflt (opts ++ [o]) = (sel o).getD (lastSetting sel dflt opts) := by
  unfold lastSetting
  rw [List.filterMap_append]
  cases h : sel o with
  | none => simp [List.filterMap, h]
  | some v => simp [List.filterMap, h]

/-- The loop over valid options succeeds; each setting ends as the last option
that sets it says, or as it started. -/
theorem applyOptions_valid (intSize : Nat) (opts : List OptionCall)
    (h : ∀ o ∈ opts, o.Valid intSize) (pool : WorkerPool) :
    applyOptions (opts.map (OptionCall.build intSize)) pool = .ok
      { pool with
        preworkFunc := lastSetting OptionCall.setsPrework pool.preworkFunc opts
        postworkFunc := lastSetting OptionCall.setsPostwork pool.postworkFunc opts
        poolSize := lastSetting OptionCall.setsPoolSize pool.poolSize opts
        workChanBuffer := lastSetting OptionCall.setsBuffer pool.workChanBuffer opts } := by
  induction opts using List.reverseRecOn with
  | nil => rfl
  | append_singleton opts o ih =>
    have ho : o.Valid intSize := h o (by simp)
    have hopts : ∀ o ∈ opts, o.Valid intSize := fun x hx => h x (by simp [hx])
    rw [List.map_append, applyOptions_append, ih hopts]
    simp only [List.map_cons, List.map_nil, applyOptions, build_valid intSize o ho,
      lastSetting_snoc]

/-- The loop over builder calls keeps the work function, the channel and the
counter, and keeps the worker count at least 1 and the capacity at least 0. -/
theorem applyOptions_build_keeps (intSize : Nat) (opts : List OptionCall) (pool p : WorkerPool)
    (h : applyOptions (opts.map (OptionCall.build intSize)) pool = .ok p) :
    p.workFunc = pool.workFunc ∧ p.workChan = pool.workChan ∧ p.wg = pool.wg ∧
      (1 ≤ pool.poolSize → 1 ≤ p.poolSize) ∧
      (0 ≤ pool.workChanBuffer → 0 ≤ p.workChanBuffer) := by
  induction opts generalizing pool with
  | nil =>
    simp only [List.map_nil, applyOptions, Except.ok.injEq] at h
    subst h
    exact ⟨rfl, rfl, rfl, id, id⟩
  | cons o rest ih =>
    simp only [List.map_cons, applyOptions] at h
    cases hb : o.build intSize pool with
    | error err => rw [hb] at h; cases h
    | ok pool1 =>
      rw [hb] at h
      obtain ⟨h1, h2, h3, h4, h5⟩ := ih pool1 h
      have key : pool1.workFunc = pool.workFunc ∧ pool1.workChan = pool.workChan ∧
          pool1.wg = pool.wg ∧ (1 ≤ pool.poolSize → 1 ≤ pool1.poolSize) ∧
          (0 ≤ pool.workChanBuffer → 0 ≤ pool1.workChanBuffer) := by
        cases o with
        | withPreworkFunc f =>
          simp only [OptionCall.build, WithPreworkFunc, Except.ok.injEq] at hb
          subst hb; exact ⟨rfl, rfl, rfl, id, id⟩
        | withPostWorkFunc f =>
          simp only [OptionCall.build, WithPostWorkFunc, Except.ok.injEq] at hb
          subst hb; exact ⟨rfl, rfl, rfl, id, id⟩
        | withPoolSize size =>
          simp only [OptionCall.build, WithPoolSize] at hb
          split at hb
          · cases hb
          · rename_i hs
            simp only [Except.ok.injEq] at hb
            subst hb
            exact ⟨rfl, rfl, rfl, fun _ => not_lt.mp hs, id⟩
        | withWorkChannelBuffer n =>
          simp only [OptionCall.build, WithWorkChannelBuffer] at hb
          split at hb
          · cases hb
          · rename_i hs
            simp only [Except.ok.injEq] at hb
            subst hb
            refine ⟨rfl, rfl, rfl, id, fun _ => ?_⟩
            show 0 ≤ toInt intSize n
            rw [toInt_of_le_maxInt intSize n (not_lt.mp hs)]
            exact Int.ofNat_nonneg n
      exact ⟨h1.trans key.1, h2.trans key.2.1, h3.trans key.2.2.1,
        fun hp => h4 (key.2.2.2.1 hp), fun hp => h5 (key.2.2.2.2 hp)⟩

theorem toInt32_of_fit (x : Int) (h0 : 0 ≤ x) (h1 : x < 2147483648) : toInt32 x = x := by
  unfold toInt32
  omega

theorem toInt32_lt (x : Int) : toInt32 x < 2147483648 := by
  unfold toInt32
  omega

/-- What a successful construction from builder calls guarantees. -/
theorem newWorkerPool_pool (intSize : Nat) (wf : Option WorkFunc) (opts : List OptionCall)
    (p : WorkerPool)
    (h : NewWorkerPool wf (opts.map (OptionCall.build intSize)) = .pool p) :
    p.workFunc = wf ∧ p.workChan = none ∧ p.wg = toInt32 p.poolSize ∧ 0 ≤ p.wg ∧
      1 ≤ p.poolSize ∧ 0 ≤ p.workChanBuffer := by
  unfold NewWorkerPool at h
  simp only at h
  split at h
  · cases h
  · rename_i pool1 hap
    obtain ⟨h1, h2, h3, h4, h5⟩ := applyOptions_build_keeps intSize opts _ pool1 hap
    simp only at h1 h2 h3 h4 h5
    have h4 := h4 (by decide)
    have h5 := h5 (by decide)
    simp only [WaitGroup.Add, h3, zero_add] at h
    by_cases hn : toInt32 pool1.poolSize < 0
    · simp only [hn, if_true] at h
      cases h
    · simp only [hn, if_false, Construction.pool.injEq] at h
      subst h
      exact ⟨h1, h2, rfl, not_lt.mp hn, h4, h5⟩

/-- A pool size option on its own: the construction faults when the size
wraps to a negative 32-bit counter, and otherwise returns the pool with that
size and the wrapped counter. -/
theorem newWorkerPool_withPoolSize (wf : Option WorkFunc) (size : Int) (h : 1 ≤ size) :
    NewWorkerPool wf [WithPoolSize size] =
      if toInt32 size < 0 then .fault .negativeWaitGroup
      else .pool
        { preworkFunc := none, postworkFunc := none, workFunc := wf, poolSize := size,
          workChan := none, workChanBuffer := 1, wg := toInt32 size } := by
  have h1 : ¬ size < 1 := not_lt.mpr h
  simp only [NewWorkerPool, applyOptions, WithPoolSize, if_neg h1, WaitGroup.Add, zero_add]
  by_cases hn : toInt32 size < 0
  · simp only [hn, if_true]
  · simp only [hn, if_false]

/-- At the accepted size `2^31` the counter wraps to a negative value and
`wg.Add` faults. -/
theorem newWorkerPool_size_two_pow_31 (wf : Option WorkFunc) :
    NewWorkerPool wf [WithPoolSize (2 ^ 31)] = .fault .negativeWaitGroup := by
  rw [newWorkerPool_withPoolSize wf _ (by norm_num)]
  have : toInt32 (2 ^ 31) = -2147483648 := by unfold toInt32; norm_num
  rw [this]
  rfl

/-- At the accepted size `2^32` the counter wraps to 0. -/
theorem newWorkerPool_size_two_pow_32 (wf : Option WorkFunc) :
    NewWorkerPool wf [WithPoolSize (2 ^ 32)] = .pool
      { preworkFunc := none, postworkFunc := none, workFunc := wf, poolSize := 2 ^ 32,
        workChan := none, workChanBuffer := 1, wg := 0 } := by
  rw [newWorkerPool_withPoolSize wf _ (by norm_num)]
  have : toInt32 (2 ^ 32) = 0 := by unfold toInt32; norm_num
  rw [this]
  rfl

/-! ## Construction: the claims -/

/-- C1: `NewWorkerPool(f, WithPoolSize(size))` returns no pool and an error
whose message names `size` when `size < 1`; it returns a pool with worker count
exactly `size` and the counter at `size` when `1 <= size < 2^31`; every pool
that `NewWorkerPool` returns, for any list of options, has worker count at
least 1.  At the accepted size `2^31` the construction faults in
`wg.Add` instead of returning, and at `2^32` it returns a pool whose counter
is 0. -/
theorem newWorkerPool_poolSize_validated (intSize : Nat) (wf : Option WorkFunc) (size : Int) :
    (size < 1 → NewWorkerPool wf [WithPoolSize size] =
        .error ("pool size " ++ fmtInt size ++ " cannot be less than 1")) ∧
    (1 ≤ size → size < 2 ^ 31 →
      ∃ p, NewWorkerPool wf [WithPoolSize size] = .pool p ∧ p.poolSize = size ∧ p.wg = size) ∧
    (∀ (opts : List OptionCall) (p : WorkerPool),
        NewWorkerPool wf (opts.map (OptionCall.build intSize)) = .pool p → 1 ≤ p.poolSize) ∧
    NewWorkerPool wf [WithPoolSize (2 ^ 31)] = .fault .negativeWaitGroup ∧
    NewWorkerPool wf [WithPoolSize (2 ^ 32)] = .pool
      { preworkFunc := none, postworkFunc := none, workFunc := wf, poolSize := 2 ^ 32,
        workChan := none, workChanBuffer := 1, wg := 0 } := by
  refine ⟨fun h => ?_, fun h hfit => ?_,
    fun opts p h => (newWorkerPool_pool intSize wf opts p h).2.2.2.2.1,
    newWorkerPool_size_two_pow_31 wf, newWorkerPool_size_two_pow_32 wf⟩
  · simp [NewWorkerPool, applyOptions, WithPoolSize, h]
  · have hfit1 : size < 2147483648 := by norm_num at hfit; exact hfit
    have hw : toInt32 size = size := toInt32_of_fit size (by omega) hfit1
    have hn : ¬ toInt32 size < 0 := by rw [hw]; omega
    rw [newWorkerPool_withPoolSize wf size h, if_neg hn, hw]
    exact ⟨_, rfl, rfl, rfl⟩

/-- C2: `NewWorkerPool(f, WithWorkChannelBuffer(n))` returns no pool and an
error exactly when `n > math.MaxInt`; otherwise it returns a pool whose queue
capacity is `n` itself, converted without loss, hence not negative. -/
theorem newWorkerPool_buffer_validated (intSize : Nat) (wf : Option WorkFunc) (n : Nat) :
    ((∃ err, NewWorkerPool wf [WithWorkChannelBuffer intSize n] = .error err) ↔
        (n : Int) > MaxInt intSize) ∧
    (¬ (n : Int) > MaxInt intSize →
      ∃ p, NewWorkerPool wf [WithWorkChannelBuffer intSize n] = .pool p ∧
        p.workChanBuffer = (n : Int) ∧ 0 ≤ p.workChanBuffer) := by
  by_cases h : (n : Int) > MaxInt intSize
  · refine ⟨⟨fun _ => h, fun _ =>
      ⟨"buffer cannot be larger than " ++ fmtInt (MaxInt intSize), ?_⟩⟩, fun h1 => absurd h h1⟩
    simp only [NewWorkerPool, applyOptions, WithWorkChannelBuffer, if_pos h]
  · have hconv := toInt_of_le_maxInt intSize n (not_lt.mp h)
    have h25 : toInt32 DefaultPoolSize = 25 := by decide
    have hok : NewWorkerPool wf [WithWorkChannelBuffer intSize n] = .pool
        { preworkFunc := none, postworkFunc := none, workFunc := wf,
          poolSize := DefaultPoolSize, workChan := none, workChanBuffer := (n : Int),
          wg := 25 } := by
      simp [NewWorkerPool, applyOptions, WithWorkChannelBuffer, h, WaitGroup.Add, hconv, h25]
    refine ⟨⟨fun ⟨err, he⟩ => ?_, fun h1 => absurd h1 h⟩, fun _ => ⟨_, hok, rfl, ?_⟩⟩
    · rw [hok] at he; cases he
    · exact Int.ofNat_nonneg n

/-- The construction from valid options whose final worker count the 32-bit
counter can hold. -/
theorem newWorkerPool_valid_fit (intSize : Nat) (wf : Option WorkFunc)
    (opts : List OptionCall) (h : ∀ o ∈ opts, o.Valid intSize)
    (hfit : lastSetting OptionCall.setsPoolSize DefaultPoolSize opts < 2 ^ 31) :
    NewWorkerPool wf (opts.map (OptionCall.build intSize)) = .pool
      { preworkFunc := lastSetting OptionCall.setsPrework none opts
        postworkFunc := lastSetting OptionCall.setsPostwork none opts
        workFunc := wf
        poolSize := lastSetting OptionCall.setsPoolSize DefaultPoolSize opts
        workChan := none
        workChanBuffer := lastSetting OptionCall.setsBuffer 1 opts
        wg := lastSetting OptionCall.setsPoolSize DefaultPoolSize opts } := by
  have hap := applyOptions_valid intSize opts h
    { preworkFunc := none, postworkFunc := none, workFunc := wf, poolSize := DefaultPoolSize,
      workChan := none, workChanBuffer := 1, wg := 0 }
  have hge := (applyOptions_build_keeps intSize opts _ _ hap).2.2.2.1
    (show (1 : Int) ≤ DefaultPoolSize by decide)
  simp only at hge
  have hfit1 : lastSetting OptionCall.setsPoolSize DefaultPoolSize opts < 2147483648 := by
    norm_num at hfit; exact hfit
  have hw := toInt32_of_fit _ (by omega) hfit1
  have hn : ¬ lastSetting OptionCall.setsPoolSize DefaultPoolSize opts < 0 := by omega
  simp only [NewWorkerPool, hap, WaitGroup.Add, zero_add, hw, if_neg hn]

/-- C6: `NewWorkerPool` applies its options in order; when every option is
valid and the final worker count is below `2^31`, each setting of the returned
pool is the one given by the last option that sets it, or the default when
none does, and the completion counter equals the final worker count; in
particular two valid `WithPoolSize` options yield the second size.  When the
last valid `WithPoolSize` gives `2^31` the construction faults in `wg.Add`, and
when it gives `2^32` the pool has that worker count and the counter 0. -/
theorem newWorkerPool_last_write_wins :
    (∀ (intSize : Nat) (wf : Option WorkFunc) (opts : List OptionCall),
      (∀ o ∈ opts, o.Valid intSize) →
      lastSetting OptionCall.setsPoolSize DefaultPoolSize opts < 2 ^ 31 →
      NewWorkerPool wf (opts.map (OptionCall.build intSize)) = .pool
        { preworkFunc := lastSetting OptionCall.setsPrework none opts
          postworkFunc := lastSetting OptionCall.setsPostwork none opts
          workFunc := wf
          poolSize := lastSetting OptionCall.setsPoolSize DefaultPoolSize opts
          workChan := none
          workChanBuffer := lastSetting OptionCall.setsBuffer 1 opts
          wg := lastSetting OptionCall.setsPoolSize DefaultPoolSize opts }) ∧
    (∀ (wf : Option WorkFunc) (a b : Int), 1 ≤ a → 1 ≤ b → b < 2 ^ 31 →
      ∃ p, NewWorkerPool wf [WithPoolSize a, WithPoolSize b] = .pool p ∧
        p.poolSize = b ∧ p.wg = b) ∧
    (∀ (wf : Option WorkFunc),
      OptionCall.Valid 64 (.withPoolSize (2 ^ 31)) ∧
      NewWorkerPool wf ([OptionCall.withPoolSize 3, .withPoolSize (2 ^ 31)].map
        (OptionCall.build 64)) = .fault .negativeWaitGroup) ∧
    (∀ (wf : Option WorkFunc),
      OptionCall.Valid 64 (.withPoolSize (2 ^ 32)) ∧
      NewWorkerPool wf ([OptionCall.withPoolSize 3, .withPoolSize (2 ^ 32)].map
        (OptionCall.build 64)) = .pool
        { preworkFunc := none, postworkFunc := none, workFunc := wf, poolSize := 2 ^ 32,
          workChan := none, workChanBuffer := 1, wg := 0 }) := by
  refine ⟨newWorkerPool_valid_fit, fun wf a b ha hb hfit => ?_, fun wf => ⟨?_, ?_⟩,
    fun wf => ⟨?_, ?_⟩⟩
  · have h1 : ¬ a < 1 := not_lt.mpr ha
    have h2 : ¬ b < 1 := not_lt.mpr hb
    have hfit1 : b < 2147483648 := by norm_num at hfit; exact hfit
    have hw : toInt32 b = b := toInt32_of_fit b (by omega) hfit1
    have h3 : ¬ b < 0 := by omega
    simp [NewWorkerPool, applyOptions, WithPoolSize, WaitGroup.Add, h1, h2, h3, hw]
  · show (1 : Int) ≤ 2 ^ 31
    norm_num
  · have h32 : toInt32 2147483648 = -2147483648 := by decide
    simp [NewWorkerPool, applyOptions, OptionCall.build, WithPoolSize, WaitGroup.Add, h32]
  · show (1 : Int) ≤ 2 ^ 32
    norm_num
  · have h32 : toInt32 4294967296 = 0 := by decide
    simp [NewWorkerPool, applyOptions, OptionCall.build, WithPoolSize, WaitGroup.Add, h32]

/-- C6 at five valid options, two of them `WithPoolSize` and two `WithPreworkFunc`. -/
theorem newWorkerPool_last_write_wins_witness :
    NewWorkerPool (some 7) ([OptionCall.withPoolSize 3, .withWorkChannelBuffer 4,
        .withPreworkFunc (some 1), .withPoolSize 5, .withPreworkFunc none].map
        (OptionCall.build 64)) = .pool
      { preworkFunc := none, postworkFunc := none, workFunc := some 7, poolSize := 5,
        workChan := none, workChanBuffer := 4, wg := 5 } :=
  newWorkerPool_last_write_wins.1 64 (some 7)
    [.withPoolSize 3, .withWorkChannelBuffer 4, .withPreworkFunc (some 1), .withPoolSize 5,
      .withPreworkFunc none]
    (by
      intro o ho
      simp only [List.mem_cons, List.mem_singleton, List.not_mem_nil, or_false] at ho
      rcases ho with rfl | rfl | rfl | rfl | rfl <;> simp [OptionCall.Valid, MaxInt])
    (by decide)

/-- C7: `NewWorkerPool(f)` without options succeeds with worker count 25, queue
capacity 1, no hooks and no work queue; `Start` is what creates the queue, with
the configured capacity (a capacity of 1 is within what `make` accepts for
every element type). -/
theorem newWorkerPool_defaults (wf : Option WorkFunc) :
    NewWorkerPool wf [] = .pool
      { preworkFunc := none, postworkFunc := none, workFunc := wf, poolSize := 25,
        workChan := none, workChanBuffer := 1, wg := 25 } ∧
    (∀ (maxChanCap : Nat) (p : WorkerPool), 1 ≤ maxChanCap → NewWorkerPool wf [] = .pool p →
      (boot p : Run Nat).sys.chans = [] ∧
      (Start maxChanCap (boot p : Run Nat).sys).1.pool.workChan = some 0 ∧
      (Start maxChanCap (boot p : Run Nat).sys).1.chans =
        [{ cap := 1, buf := [], closed := false }]) ∧
    (∀ (maxChanCap : Nat) (s : State Nat), 0 ≤ s.pool.workChanBuffer →
      s.pool.workChanBuffer ≤ (maxChanCap : Int) →
      (Start maxChanCap s).1.pool.workChan = some (Start maxChanCap s).2 ∧
      (Start maxChanCap s).1.chans[(Start maxChanCap s).2]? =
        some { cap := s.pool.workChanBuffer.toNat, buf := [], closed := false }) := by
  have h0 : NewWorkerPool wf [] = .pool
      { preworkFunc := none, postworkFunc := none, workFunc := wf, poolSize := 25,
        workChan := none, workChanBuffer := 1, wg := 25 } := by
    have h25 : toInt32 25 = 25 := by decide
    simp [NewWorkerPool, applyOptions, WaitGroup.Add, h25, DefaultPoolSize]
  refine ⟨h0, fun maxChanCap p hcap hp => ?_, fun maxChanCap s hs hcap => ?_⟩
  · rw [h0] at hp
    simp only [Construction.pool.injEq] at hp
    subst hp
    have hm : maxChanCap ≠ 0 := by omega
    simp [boot, Start, hm]
  · have hn : ¬ (s.pool.workChanBuffer < 0 ∨ (maxChanCap : Int) < s.pool.workChanBuffer) := by
      omega
    simp [Start, hn]

/-- C8, as the code has it: the pool that `NewWorkerPool` returns carries the
work function it was given, for every list of options; it is not nil exactly
when the caller's is not. -/
theorem newWorkerPool_keeps_workFunc (intSize : Nat) (wf : Option WorkFunc)
    (opts : List OptionCall) (p : WorkerPool)
    (h : NewWorkerPool wf (opts.map (OptionCall.build intSize)) = .pool p) :
    p.workFunc = wf :=
  (newWorkerPool_pool intSize wf opts p h).1

/-- C8 as the code has it, at `NewWorkerPool(f, WithPoolSize(2))`. -/
theorem newWorkerPool_keeps_workFunc_witness :
    NewWorkerPool (some 7) ([OptionCall.withPoolSize 2].map (OptionCall.build 64)) = .pool
        { preworkFunc := none, postworkFunc := none, workFunc := some 7, poolSize := 2,
          workChan := none, workChanBuffer := 1, wg := 2 } ∧
      (some 7 : Option WorkFunc) = some 7 :=
  have h : NewWorkerPool (some 7) ([OptionCall.withPoolSize 2].map (OptionCall.build 64)) = .pool
        { preworkFunc := none, postworkFunc := none, workFunc := some 7, poolSize := 2,
          workChan := none, workChanBuffer := 1, wg := 2 } := by decide
  ⟨h, newWorkerPool_keeps_workFunc 64 (some 7) [.withPoolSize 2] _ h⟩

/-- C8, as stated, fails: with a nil work function and no options the
construction succeeds and the pool's work function is nil. -/
theorem newWorkerPool_nil_workFunc_accepted :
    ∃ p, NewWorkerPool none [] = .pool p ∧ p.workFunc = none :=
  ⟨{ preworkFunc := none, postworkFunc := none, workFunc := none, poolSize := 25,
      workChan := none, workChanBuffer := 1, wg := 25 }, by decide, rfl⟩

/-! ## The goroutine table: lemmas -/

theorem sum_map_set {α : Type} (f : α → Nat) (ws : List α) (j : Nat) (a b : α)
    (h : ws[j]? = some a) : ((ws.set j b).map f).sum + f a = (ws.map f).sum + f b := by
  induction ws generalizing j with
  | nil => simp at h
  | cons w ws ih =>
    cases j with
    | zero =>
      simp only [List.getElem?_cons_zero, Option.some.injEq] at h
      subst h
      simp only [List.set_cons_zero, List.map_cons, List.sum_cons]
      omega
    | succ j =>
      simp only [List.getElem?_cons_succ] at h
      have := ih j h
      simp only [List.set_cons_succ, List.map_cons, List.sum_cons]
      omega

theorem held_set (ws : List (WorkerPc T)) (j : Nat) (a b : WorkerPc T) (h : ws[j]? = some a) :
    (held (ws.set j b) ++ heldBy a).Perm (held ws ++ heldBy b) := by
  induction ws generalizing j with
  | nil => simp at h
  | cons w ws ih =>
    cases j with
    | zero =>
      simp only [List.getElem?_cons_zero, Option.some.injEq] at h
      subst h
      simp only [List.set_cons_zero, held]
      calc (heldBy b ++ held ws ++ heldBy w).Perm (heldBy b ++ (held ws ++ heldBy w)) := by
            rw [List.append_assoc]
        _ |>.Perm (held ws ++ heldBy w ++ heldBy b) := List.perm_append_comm
        _ |>.Perm (heldBy w ++ held ws ++ heldBy b) :=
            List.Perm.append_right _ List.perm_append_comm
    | succ j =>
      simp only [List.getElem?_cons_succ] at h
      simp only [List.set_cons_succ, held, List.append_assoc]
      exact List.Perm.append_left _ (ih j h)

theorem getElem?_set_self_of (ws : List (WorkerPc T)) (j : Nat) (a b : WorkerPc T)
    (h : ws[j]? = some a) : (ws.set j b)[j]? = some b := by
  induction ws generalizing j with
  | nil => simp at h
  | cons w ws ih =>
    cases j with
    | zero => simp
    | succ j =>
      simp only [List.getElem?_cons_succ] at h
      simpa using ih j h

theorem getElem?_set_other (ws : List (WorkerPc T)) (j i : Nat) (b : WorkerPc T) (h : i ≠ j) :
    (ws.set j b)[i]? = ws[i]? := by
  induction ws generalizing j i with
  | nil => simp
  | cons w ws ih =>
    cases j with
    | zero =>
      cases i with
      | zero => exact absurd rfl h
      | succ i => simp
    | succ j =>
      cases i with
      | zero => simp
      | succ i =>
        simp only [List.set_cons_succ, List.getElem?_cons_succ]
        exact ih j i (fun e => h (by rw [e]))

theorem at_set_same (P : WorkerPc T → Bool) (ws : List (WorkerPc T)) (j : Nat)
    (a b : WorkerPc T) (h : ws[j]? = some a) (hP : P b = P a) (i : Nat) :
    At P (ws.set j b) i ↔ At P ws i := by
  unfold At
  by_cases hij : i = j
  · subst hij
    rw [getElem?_set_self_of ws i a b h, h]
    simp [hP]
  · rw [getElem?_set_other ws j i b hij]

theorem at_set_new (P : WorkerPc T → Bool) (ws : List (WorkerPc T)) (j : Nat)
    (a b : WorkerPc T) (h : ws[j]? = some a) (hb : P b = true) (i : Nat) :
    At P (ws.set j b) i ↔ i = j ∨ At P ws i := by
  unfold At
  by_cases hij : i = j
  · subst hij
    rw [getElem?_set_self_of ws i a b h]
    simp [hb]
  · rw [getElem?_set_other ws j i b hij]
    simp [hij]

theorem not_at_self (P : WorkerPc T → Bool) (ws : List (WorkerPc T)) (j : Nat)
    (a : WorkerPc T) (h : ws[j]? = some a) (ha : P a = false) : ¬ At P ws j := by
  rintro ⟨w, hw, hP⟩
  rw [h] at hw
  simp only [Option.some.injEq] at hw
  subst hw
  rw [ha] at hP
  cases hP

theorem at_self (P : WorkerPc T → Bool) (ws : List (WorkerPc T)) (j : Nat)
    (a : WorkerPc T) (h : ws[j]? = some a) (ha : P a = true) : At P ws j :=
  ⟨a, h, ha⟩

theorem mem_of_getElem? (ws : List (WorkerPc T)) (j : Nat) (a : WorkerPc T)
    (h : ws[j]? = some a) : a ∈ ws := by
  induction ws generalizing j with
  | nil => simp at h
  | cons w ws ih =>
    cases j with
    | zero =>
      simp only [List.getElem?_cons_zero, Option.some.injEq] at h
      subst h
      exact List.mem_cons_self _ _
    | succ j =>
      simp only [List.getElem?_cons_succ] at h
      exact List.mem_cons_of_mem _ (ih j h)

theorem mem_set_cases (ws : List (WorkerPc T)) (j : Nat) (b w : WorkerPc T)
    (h : w ∈ ws.set j b) : w = b ∨ w ∈ ws := by
  induction ws generalizing j with
  | nil => simp at h
  | cons x ws ih =>
    cases j with
    | zero =>
      simp only [List.set_cons_zero, List.mem_cons] at h
      rcases h with h | h
      · exact Or.inl h
      · exact Or.inr (List.mem_cons_of_mem _ h)
    | succ j =>
      simp only [List.set_cons_succ, List.mem_cons] at h
      rcases h with h | h
      · exact Or.inr (h ▸ List.mem_cons_self _ _)
      · rcases ih j h with h1 | h1
        · exact Or.inl h1
        · exact Or.inr (List.mem_cons_of_mem _ h1)

theorem live_set (ws : List (WorkerPc T)) (j : Nat) (a b : WorkerPc T) (h : ws[j]? = some a) :
    live (ws.set j b) + a.alive = live ws + b.alive :=
  sum_map_set WorkerPc.alive ws j a b h

theorem rank_set (ws : List (WorkerPc T)) (j : Nat) (a b : WorkerPc T) (h : ws[j]? = some a) :
    ((ws.set j b).map WorkerPc.rank).sum + a.rank = (ws.map WorkerPc.rank).sum + b.rank :=
  sum_map_set WorkerPc.rank ws j a b h

theorem traceInv_same (proj : List (Event T) → List Nat) (en : Bool) (P : WorkerPc T → Bool)
    (ws : List (WorkerPc T)) (tr tr1 : List (Event T)) (j : Nat) (a b : WorkerPc T)
    (h : TraceInv proj en P ws tr) (hj : ws[j]? = some a) (hP : en = true → P b = P a)
    (htr : proj tr1 = proj tr) : TraceInv proj en P (ws.set j b) tr1 := by
  unfold TraceInv at *
  rw [htr]
  refine ⟨h.1, fun i => ?_⟩
  rw [h.2 i]
  constructor
  · rintro ⟨he, hat⟩
    exact ⟨he, (at_set_same P ws j a b hj (hP he) i).mpr hat⟩
  · rintro ⟨he, hat⟩
    exact ⟨he, (at_set_same P ws j a b hj (hP he) i).mp hat⟩

theorem traceInv_new (proj : List (Event T) → List Nat) (P : WorkerPc T → Bool)
    (ws : List (WorkerPc T)) (tr tr1 : List (Event T)) (j : Nat) (a b : WorkerPc T)
    (h : TraceInv proj true P ws tr) (hj : ws[j]? = some a) (ha : P a = false)
    (hb : P b = true) (htr : proj tr1 = j :: proj tr) :
    TraceInv proj true P (ws.set j b) tr1 := by
  unfold TraceInv at *
  rw [htr]
  have hnot : j ∉ proj tr := fun hm => not_at_self P ws j a hj ha ((h.2 j).mp hm).2
  refine ⟨List.nodup_cons.mpr ⟨hnot, h.1⟩, fun i => ?_⟩
  rw [List.mem_cons, h.2 i, at_set_new P ws j a b hj hb i]
  simp

theorem ok_set (ch : Chan T) (ws : List (WorkerPc T)) (j : Nat) (b : WorkerPc T)
    (h : ∀ w ∈ ws, WorkerOk ch w) (hb : WorkerOk ch b) : ∀ w ∈ ws.set j b, WorkerOk ch w := by
  intro w hw
  rcases mem_set_cases ws j b w hw with h1 | h1
  · rw [h1]; exact hb
  · exact h w h1

theorem phase_live (items : List T) (ch : Chan T) (ws ws1 : List (WorkerPc T))
    (caller : CallerPc) (hl : live ws1 = live ws) (h : PhaseOk items ch ws caller) :
    PhaseOk items ch ws1 caller := by
  cases caller with
  | created => exact h
  | submitting wc k => exact h
  | stopping => exact h
  | stopped => exact ⟨h.1, hl.trans h.2⟩

theorem held_set_same (ws : List (WorkerPc T)) (j : Nat) (a b : WorkerPc T)
    (h : ws[j]? = some a) (ha : heldBy a = []) (hb : heldBy b = []) :
    (held (ws.set j b)).Perm (held ws) := by
  have := held_set ws j a b h
  rwa [ha, hb, List.append_nil, List.append_nil] at this

/-! ## The invariant is kept by every step -/

section Transitions

variable {lim : Nat} {p : WorkerPool} {items : List T} {caller : CallerPc} {ch : Chan T}
  {ws : List (WorkerPc T)} {tr tr1 : List (Event T)} {j : Nat}

theorem live_le_length (ws : List (WorkerPc T)) : live ws ≤ ws.length := by
  induction ws with
  | nil => exact Nat.le_refl _
  | cons w ws ih =>
    simp only [live, List.map_cons, List.sum_cons, List.length_cons] at ih ⊢
    have : w.alive ≤ 1 := by
      unfold WorkerPc.alive
      split <;> omega
    omega

theorem live_set_same (a b : WorkerPc T) (hj : ws[j]? = some a) (hab : b.alive = a.alive) :
    live (ws.set j b) = live ws := by
  have := live_set ws j a b hj
  omega

/-- A worker passes the pre-work hook. -/
theorem Good.enter (g : Good p items caller ch ws tr) (hj : ws[j]? = some .entry)
    (htr : (p.preworkFunc.isSome = true ∧ tr1 = .prework j :: tr) ∨
      (p.preworkFunc.isSome = false ∧ tr1 = tr)) :
    Good p items caller ch (ws.set j .ranging) tr1 := by
  have hpost : postworkers tr1 = postworkers tr := by
    rcases htr with ⟨_, rfl⟩ | ⟨_, rfl⟩ <;> simp [postworkers]
  have hdone : doners tr1 = doners tr := by
    rcases htr with ⟨_, rfl⟩ | ⟨_, rfl⟩ <;> simp [doners]
  have hworked : worked tr1 = worked tr := by
    rcases htr with ⟨_, rfl⟩ | ⟨_, rfl⟩ <;> simp [worked]
  exact
    { len := by rw [List.length_set]; exact g.len
      ok := ok_set _ _ _ _ g.ok ⟨trivial, by simp [WorkerPc.pastLoop]⟩
      phase := phase_live _ _ _ _ _ (live_set_same _ _ hj rfl) g.phase
      perm := by
        rw [hworked]
        exact g.perm.trans (List.Perm.append_left _
          (List.Perm.append_right _ (held_set_same ws j _ .ranging hj rfl rfl).symm))
      pre := by
        rcases htr with ⟨he, rfl⟩ | ⟨he, rfl⟩
        · have h := g.pre
          rw [he] at h ⊢
          exact traceInv_new _ _ _ _ _ _ _ _ h hj rfl rfl (by simp [preworkers])
        · exact traceInv_same _ _ _ _ _ _ _ _ _ g.pre hj
            (fun h => by rw [he] at h; cases h) rfl
      post := traceInv_same _ _ _ _ _ _ _ _ _ g.post hj (fun _ => rfl) hpost
      done := traceInv_same _ _ _ _ _ _ _ _ _ g.done hj (fun _ => rfl) hdone
      ordered := by
        rcases htr with ⟨_, rfl⟩ | ⟨_, rfl⟩
        · simpa [Ordered] using g.ordered
        · exact g.ordered }

/-- A worker evaluates the channel of its loop. -/
theorem Good.range (g : Good p items caller ch ws tr) (hj : ws[j]? = some .ranging) :
    Good p items caller ch (ws.set j (.receiving 0)) tr :=
  { len := by rw [List.length_set]; exact g.len
    ok := ok_set _ _ _ _ g.ok ⟨rfl, by simp [WorkerPc.pastLoop]⟩
    phase := phase_live _ _ _ _ _ (live_set_same _ _ hj rfl) g.phase
    perm := g.perm.trans (List.Perm.append_left _
      (List.Perm.append_right _ (held_set_same ws j _ (.receiving 0) hj rfl rfl).symm))
    pre := traceInv_same _ _ _ _ _ _ _ _ _ g.pre hj (fun _ => rfl) rfl
    post := traceInv_same _ _ _ _ _ _ _ _ _ g.post hj (fun _ => rfl) rfl
    done := traceInv_same _ _ _ _ _ _ _ _ _ g.done hj (fun _ => rfl) rfl
    ordered := g.ordered }

/-- A worker takes the oldest item of the buffer. -/
theorem Good.dequeue {c : Nat} {t : T} {rest : List T}
    (g : Good p items caller ch ws tr) (hj : ws[j]? = some (.receiving c))
    (hbuf : ch.buf = t :: rest) :
    Good p items caller { ch with buf := rest } (ws.set j (.working c t)) tr :=
  have hc : c = 0 := (g.ok _ (mem_of_getElem? ws j _ hj)).1
  have hopen : ∀ w ∈ ws, w.pastLoop = false := by
    intro w hw
    cases hpl : w.pastLoop with
    | false => rfl
    | true =>
      have := ((g.ok w hw).2 hpl).1
      rw [hbuf] at this
      cases this
  { len := by rw [List.length_set]; exact g.len
    ok := by
      intro w hw
      rcases mem_set_cases ws j _ w hw with h1 | h1
      · rw [h1]; exact ⟨hc, by simp [WorkerPc.pastLoop]⟩
      · refine ⟨(g.ok w h1).1, fun hpl => ?_⟩
        rw [hopen w h1] at hpl
        cases hpl
    phase := by
      have hl := live_set_same (.receiving c) (.working c t) hj rfl
      have h := g.phase
      cases caller with
      | created => exact h
      | submitting wc k => exact h
      | stopping => exact h
      | stopped => exact ⟨h.1, hl.trans h.2⟩
    perm := by
      have h1 := held_set ws j _ (.working c t) hj
      simp only [heldBy, List.append_nil] at h1
      refine g.perm.trans ?_
      rw [hbuf]
      simp only [List.cons_append]
      have h2 : (t :: (rest ++ (held ws ++ worked tr))).Perm
          (rest ++ ((held ws ++ [t]) ++ worked tr)) := by
        refine (List.perm_middle.symm).trans ?_
        refine List.Perm.append_left _ ?_
        simp only [List.append_assoc]
        refine (List.perm_middle.symm).trans ?_
        exact List.Perm.append_left _ (by simp [List.perm_middle])
      exact h2.trans (List.Perm.append_left _ (List.Perm.append_right _ h1.symm))
    pre := traceInv_same _ _ _ _ _ _ _ _ _ g.pre hj (fun _ => rfl) rfl
    post := traceInv_same _ _ _ _ _ _ _ _ _ g.post hj (fun _ => rfl) rfl
    done := traceInv_same _ _ _ _ _ _ _ _ _ g.done hj (fun _ => rfl) rfl
    ordered := g.ordered }

/-- A worker finds the channel closed and empty and leaves its loop. -/
theorem Good.leave {c : Nat} (g : Good p items caller ch ws tr)
    (hj : ws[j]? = some (.receiving c)) (hbuf : ch.buf = []) (hcl : ch.closed = true) :
    Good p items caller ch (ws.set j .leaving) tr :=
  { len := by rw [List.length_set]; exact g.len
    ok := ok_set _ _ _ _ g.ok ⟨trivial, fun _ => ⟨hbuf, hcl⟩⟩
    phase := phase_live _ _ _ _ _ (live_set_same _ _ hj rfl) g.phase
    perm := g.perm.trans (List.Perm.append_left _
      (List.Perm.append_right _ (held_set_same ws j _ .leaving hj rfl rfl).symm))
    pre := traceInv_same _ _ _ _ _ _ _ _ _ g.pre hj (fun _ => rfl) rfl
    post := traceInv_same _ _ _ _ _ _ _ _ _ g.post hj (fun _ => rfl) rfl
    done := traceInv_same _ _ _ _ _ _ _ _ _ g.done hj (fun _ => rfl) rfl
    ordered := g.ordered }

/-- A worker calls the work function on the item it holds. -/
theorem Good.work {c : Nat} {t : T} (g : Good p items caller ch ws tr)
    (hj : ws[j]? = some (.working c t)) :
    Good p items caller ch (ws.set j (.receiving c)) (.work j t :: tr) :=
  have hc : c = 0 := (g.ok _ (mem_of_getElem? ws j _ hj)).1
  { len := by rw [List.length_set]; exact g.len
    ok := ok_set _ _ _ _ g.ok ⟨hc, by simp [WorkerPc.pastLoop]⟩
    phase := phase_live _ _ _ _ _ (live_set_same _ _ hj rfl) g.phase
    perm := by
      have h1 := held_set ws j _ (.receiving c) hj
      simp only [heldBy, List.append_nil] at h1
      refine g.perm.trans (List.Perm.append_left _ ?_)
      simp only [worked]
      exact (List.Perm.append_right _ h1.symm).trans (by simp)
    pre := traceInv_same _ _ _ _ _ _ _ _ _ g.pre hj (fun _ => rfl) rfl
    post := traceInv_same _ _ _ _ _ _ _ _ _ g.post hj (fun _ => rfl) rfl
    done := traceInv_same _ _ _ _ _ _ _ _ _ g.done hj (fun _ => rfl) rfl
    ordered := by
      refine ⟨fun he => ?_, fun hm => ?_, fun hm => ?_, g.ordered⟩
      · exact (g.pre.2 j).mpr ⟨he, at_self _ ws j _ hj rfl⟩
      · exact not_at_self _ ws j _ hj rfl ((g.post.2 j).mp hm).2
      · exact not_at_self _ ws j _ hj rfl ((g.done.2 j).mp hm).2 }

/-- A worker passes the post-work hook. -/
theorem Good.finish (g : Good p items caller ch ws tr) (hj : ws[j]? = some .leaving)
    (htr : (p.postworkFunc.isSome = true ∧ tr1 = .postwork j :: tr) ∨
      (p.postworkFunc.isSome = false ∧ tr1 = tr)) :
    Good p items caller ch (ws.set j .deferred) tr1 := by
  have hpre : preworkers tr1 = preworkers tr := by
    rcases htr with ⟨_, rfl⟩ | ⟨_, rfl⟩ <;> simp [preworkers]
  have hdone : doners tr1 = doners tr := by
    rcases htr with ⟨_, rfl⟩ | ⟨_, rfl⟩ <;> simp [doners]
  have hworked : worked tr1 = worked tr := by
    rcases htr with ⟨_, rfl⟩ | ⟨_, rfl⟩ <;> simp [worked]
  have hdr := (g.ok _ (mem_of_getElem? ws j _ hj)).2 rfl
  exact
    { len := by rw [List.length_set]; exact g.len
      ok := ok_set _ _ _ _ g.ok ⟨trivial, fun _ => hdr⟩
      phase := phase_live _ _ _ _ _ (live_set_same _ _ hj rfl) g.phase
      perm := by
        rw [hworked]
        exact g.perm.trans (List.Perm.append_left _
          (List.Perm.append_right _ (held_set_same ws j _ .deferred hj rfl rfl).symm))
      pre := traceInv_same _ _ _ _ _ _ _ _ _ g.pre hj (fun _ => rfl) hpre
      post := by
        rcases htr with ⟨he, rfl⟩ | ⟨he, rfl⟩
        · have h := g.post
          rw [he] at h ⊢
          exact traceInv_new _ _ _ _ _ _ _ _ h hj rfl rfl (by simp [postworkers])
        · exact traceInv_same _ _ _ _ _ _ _ _ _ g.post hj
            (fun h => by rw [he] at h; cases h) rfl
      done := traceInv_same _ _ _ _ _ _ _ _ _ g.done hj (fun _ => rfl) hdone
      ordered := by
        rcases htr with ⟨_, rfl⟩ | ⟨_, rfl⟩
        · exact ⟨fun hm => not_at_self _ ws j _ hj rfl ((g.done.2 j).mp hm).2, g.ordered⟩
        · exact g.ordered }

/-- A worker calls `Done` and ends; the caller is not yet back from `Stop`. -/
theorem Good.exit (g : Good p items caller ch ws tr) (hj : ws[j]? = some .deferred) :
    Good p items caller ch (ws.set j .exited) (.done j :: tr) := by
  have hdr := (g.ok _ (mem_of_getElem? ws j _ hj)).2 rfl
  have hlive := live_set ws j _ .exited hj
  simp only [WorkerPc.alive, WorkerPc.isExited] at hlive
  exact
    { len := by rw [List.length_set]; exact g.len
      ok := ok_set _ _ _ _ g.ok ⟨trivial, fun _ => hdr⟩
      phase := by
        have h := g.phase
        cases caller with
        | created => exact h
        | submitting wc k => exact h
        | stopping => exact h
        | stopped =>
          refine ⟨h.1, ?_⟩
          have := h.2
          simp at hlive
          omega
      perm := g.perm.trans (List.Perm.append_left _
          (List.Perm.append_right _ (held_set_same ws j _ .exited hj rfl rfl).symm))
      pre := traceInv_same _ _ _ _ _ _ _ _ _ g.pre hj (fun _ => rfl) rfl
      post := traceInv_same _ _ _ _ _ _ _ _ _ g.post hj (fun _ => rfl) rfl
      done := traceInv_new _ _ _ _ _ _ _ _ g.done hj rfl rfl rfl
      ordered :=
        ⟨fun he => (g.post.2 j).mpr ⟨he, at_self _ ws j _ hj rfl⟩, g.ordered⟩ }

theorem lt_length_of_getElem? {α : Type} (l : List α) (k : Nat) (t : α) (h : l[k]? = some t) :
    k < l.length := by
  by_contra hk
  rw [List.getElem?_eq_none (not_lt.mp hk)] at h
  cases h

theorem take_succ_of_getElem? {α : Type} (l : List α) (k : Nat) (t : α) (h : l[k]? = some t) :
    l.take (k + 1) = l.take k ++ [t] := by
  rw [List.take_succ, h]
  rfl

/-- The caller's send completes through the buffer. -/
theorem Good.send {wc k : Nat} {t : T} (g : Good p items (.submitting wc k) ch ws tr)
    (ht : items[k]? = some t) :
    Good p items (.submitting wc (k + 1)) { ch with buf := ch.buf ++ [t] } ws tr :=
  have hph := g.phase
  { len := g.len
    ok := by
      intro w hw
      refine ⟨(g.ok w hw).1, fun hpl => ?_⟩
      have := ((g.ok w hw).2 hpl).2
      rw [hph.2.2] at this
      cases this
    phase := ⟨hph.1, lt_length_of_getElem? items k t ht, hph.2.2⟩
    perm := by
      show (items.take (k + 1)).Perm _
      rw [take_succ_of_getElem? items k t ht]
      have h := g.perm
      simp only [submitted] at h
      refine (List.Perm.append_right [t] h).trans ?_
      simp only [List.append_assoc]
      refine List.Perm.append_left _ ?_
      rw [← List.append_assoc]
      exact List.perm_append_comm
    pre := g.pre
    post := g.post
    done := g.done
    ordered := g.ordered }

/-- The caller's send completes by handing the item to a waiting worker. -/
theorem Good.handoff {wc k c : Nat} {t : T} (g : Good p items (.submitting wc k) ch ws tr)
    (ht : items[k]? = some t) (hj : ws[j]? = some (.receiving c)) :
    Good p items (.submitting wc (k + 1)) ch (ws.set j (.working c t)) tr :=
  have hph := g.phase
  have hc : c = 0 := (g.ok _ (mem_of_getElem? ws j _ hj)).1
  { len := by rw [List.length_set]; exact g.len
    ok := ok_set _ _ _ _ g.ok ⟨hc, by simp [WorkerPc.pastLoop]⟩
    phase := ⟨hph.1, lt_length_of_getElem? items k t ht, hph.2.2⟩
    perm := by
      show (items.take (k + 1)).Perm _
      rw [take_succ_of_getElem? items k t ht]
      have h := g.perm
      simp only [submitted] at h
      have h1 := held_set ws j _ (.working c t) hj
      simp only [heldBy, List.append_nil] at h1
      refine (List.Perm.append_right [t] h).trans ?_
      simp only [List.append_assoc]
      refine List.Perm.append_left _ ?_
      refine (List.Perm.trans ?_ (List.Perm.append_right _ h1.symm))
      simp only [List.append_assoc]
      exact List.Perm.append_left _ List.perm_append_comm
    pre := traceInv_same _ _ _ _ _ _ _ _ _ g.pre hj (fun _ => rfl) rfl
    post := traceInv_same _ _ _ _ _ _ _ _ _ g.post hj (fun _ => rfl) rfl
    done := traceInv_same _ _ _ _ _ _ _ _ _ g.done hj (fun _ => rfl) rfl
    ordered := g.ordered }

/-- The caller has submitted every item and closes the channel. -/
theorem Good.close {wc k : Nat} (g : Good p items (.submitting wc k) ch ws tr)
    (ht : items[k]? = none) :
    Good p items .stopping { ch with closed := true } ws tr :=
  have hph := g.phase
  { len := g.len
    ok := by
      intro w hw
      refine ⟨(g.ok w hw).1, fun hpl => ?_⟩
      have := ((g.ok w hw).2 hpl).2
      rw [hph.2.2] at this
      cases this
    phase := rfl
    perm := by
      have h := g.perm
      simp only [submitted] at h
      have hk : items.length ≤ k := by
        by_contra hlt
        rw [List.getElem?_eq_getElem (not_le.mp hlt)] at ht
        cases ht
      rw [List.take_of_length_le hk] at h
      exact h
    pre := g.pre
    post := g.post
    done := g.done
    ordered := g.ordered }

/-- The counter is 0 and `Wait` returns. -/
theorem Good.wait (g : Good p items .stopping ch ws tr) (hl : live ws = 0) :
    Good p items .stopped ch ws tr :=
  { len := g.len
    ok := g.ok
    phase := ⟨g.phase, hl⟩
    perm := g.perm
    pre := g.pre
    post := g.post
    done := g.done
    ordered := g.ordered }

theorem variant_move (m : Nat) (a b : WorkerPc T) (hj : ws[j]? = some a)
    (hr : b.rank < a.rank) :
    variant m caller ch (ws.set j b) < variant m caller ch ws := by
  have := rank_set ws j a b hj
  unfold variant
  omega

theorem running_eq (caller1 : CallerPc) (ch1 : Chan T) (ws1 : List (WorkerPc T))
    (tr1 : List (Event T)) (n : Int) (hn : n = (live ws1 : Int)) :
    ({ caller := caller1
       sys :=
        { pool := { p with workChan := some 0, wg := n }
          chans := [ch1]
          workers := ws1
          trace := tr1
          crashed := none } } : Run T) = running p caller1 ch1 ws1 tr1 := by
  subst hn
  rfl

theorem move_eq (a b : WorkerPc T) (ch1 : Chan T) (tr1 : List (Event T))
    (hj : ws[j]? = some a) (hab : b.alive = a.alive) :
    ({ caller := caller
       sys :=
        { pool := { p with workChan := some 0, wg := (live ws : Int) }
          chans := [ch1]
          workers := ws.set j b
          trace := tr1
          crashed := none } } : Run T) = running p caller ch1 (ws.set j b) tr1 :=
  running_eq _ _ _ _ _ (by rw [live_set_same a b hj hab])

/-- A step of a worker of a started lifecycle keeps the invariant and lowers the variant. -/
theorem running_worker (hp : Ready p) (g : Good p items caller ch ws tr) {s1 : State T}
    (h : workerStep j (running p caller ch ws tr).sys = some s1) :
    ∃ ch1 ws1 tr1, ({ caller := caller, sys := s1 } : Run T) = running p caller ch1 ws1 tr1 ∧
      Good p items caller ch1 ws1 tr1 ∧
      variant items.length caller ch1 ws1 < variant items.length caller ch ws := by
  unfold workerStep at h
  simp only [running] at h
  cases hw : ws[j]? with
  | none => simp [hw] at h
  | some w =>
    simp only [hw] at h
    cases w with
    | entry =>
      simp only at h
      split at h
      · rename_i f hpre
        simp only [Option.some.injEq] at h
        subst h
        exact ⟨ch, ws.set j .ranging, .prework j :: tr, move_eq .entry .ranging _ _ hw rfl,
          g.enter hw (Or.inl ⟨by simp [hpre], rfl⟩),
          variant_move _ .entry .ranging hw (by simp [WorkerPc.rank])⟩
      · rename_i hpre
        simp only [Option.some.injEq] at h
        subst h
        exact ⟨ch, ws.set j .ranging, tr, move_eq .entry .ranging _ _ hw rfl,
          g.enter hw (Or.inr ⟨by simp [hpre], rfl⟩),
          variant_move _ .entry .ranging hw (by simp [WorkerPc.rank])⟩
    | ranging =>
      simp only [Option.some.injEq] at h
      subst h
      exact ⟨ch, ws.set j (.receiving 0), tr, move_eq .ranging (.receiving 0) _ _ hw rfl,
        g.range hw, variant_move _ .ranging (.receiving 0) hw (by simp [WorkerPc.rank])⟩
    | receiving c =>
      have hc : c = 0 := (g.ok _ (mem_of_getElem? ws j _ hw)).1
      subst hc
      simp only [List.getElem?_cons_zero] at h
      cases hbuf : ch.buf with
      | nil =>
        simp only [hbuf] at h
        cases hcl : ch.closed with
        | false => simp [hcl] at h
        | true =>
          simp only [hcl, if_true, Option.some.injEq] at h
          subst h
          exact ⟨ch, ws.set j .leaving, tr, move_eq (.receiving 0) .leaving _ _ hw rfl,
            g.leave hw hbuf hcl,
            variant_move _ (.receiving 0) .leaving hw (by simp [WorkerPc.rank])⟩
      | cons t rest =>
        simp only [hbuf, Option.some.injEq, List.set_cons_zero] at h
        subst h
        refine ⟨{ ch with buf := rest }, ws.set j (.working 0 t), tr,
          move_eq (.receiving 0) (.working 0 t) _ _ hw rfl, g.dequeue hw hbuf, ?_⟩
        have := rank_set ws j _ (.working 0 t) hw
        simp only [WorkerPc.rank] at this
        unfold variant
        simp only [hbuf, List.length_cons]
        omega
    | working c t =>
      simp only at h
      split at h
      · rename_i hwf
        have := hp.workFunc
        rw [hwf] at this
        cases this
      · simp only [Option.some.injEq] at h
        subst h
        exact ⟨ch, ws.set j (.receiving c), .work j t :: tr,
          move_eq (.working c t) (.receiving c) _ _ hw rfl, g.work hw,
          variant_move _ (.working c t) (.receiving c) hw (by simp [WorkerPc.rank])⟩
    | leaving =>
      simp only at h
      split at h
      · rename_i f hpost
        simp only [Option.some.injEq] at h
        subst h
        exact ⟨ch, ws.set j .deferred, .postwork j :: tr, move_eq .leaving .deferred _ _ hw rfl,
          g.finish hw (Or.inl ⟨by simp [hpost], rfl⟩),
          variant_move _ .leaving .deferred hw (by simp [WorkerPc.rank])⟩
      · rename_i hpost
        simp only [Option.some.injEq] at h
        subst h
        exact ⟨ch, ws.set j .deferred, tr, move_eq .leaving .deferred _ _ hw rfl,
          g.finish hw (Or.inr ⟨by simp [hpost], rfl⟩),
          variant_move _ .leaving .deferred hw (by simp [WorkerPc.rank])⟩
    | deferred =>
      have hlive := live_set ws j _ .exited hw
      simp only [WorkerPc.alive, WorkerPc.isExited] at hlive
      simp only [Bool.false_eq_true, if_false, if_true] at hlive
      have hle := live_le_length ws
      have hlen := g.len
      have hfit := hp.fit
      have hN : ((p.poolSize.toNat : Nat) : Int) = p.poolSize :=
        Int.toNat_of_nonneg (by have := hp.size; omega)
      have hw32 : toInt32 ((live ws : Int) + -1) = (live ws : Int) - 1 := by
        unfold toInt32
        omega
      have hn : ¬ ((live ws : Int) - 1 < 0) := by omega
      simp only [WaitGroup.Add, hw32, if_neg hn, Option.some.injEq] at h
      subst h
      exact ⟨ch, ws.set j .exited, .done j :: tr,
        running_eq _ _ _ _ _ (by omega),
        g.exit hw, variant_move _ .deferred .exited hw (by simp [WorkerPc.rank])⟩
    | exited => simp at h

/-- A step of the caller of a started lifecycle keeps the invariant and lowers the variant. -/
theorem running_caller (g : Good p items caller ch ws tr) {r1 : Run T}
    (h : callerStep lim items (running p caller ch ws tr) = some r1) :
    ∃ caller1 ch1, r1 = running p caller1 ch1 ws tr ∧ Good p items caller1 ch1 ws tr ∧
      variant items.length caller1 ch1 ws < variant items.length caller ch ws := by
  unfold callerStep at h
  simp only [running] at h
  cases caller with
  | created => exact absurd g.phase id
  | submitting wc k =>
    obtain ⟨hwc, hk, hopen⟩ := g.phase
    subst hwc
    cases ht : items[k]? with
    | some t =>
      simp only [ht, sendBuffered, List.getElem?_cons_zero, hopen, Bool.false_eq_true,
        if_false] at h
      by_cases hcap : ch.buf.length < ch.cap
      · simp only [hcap, if_true, Option.isSome_none, Bool.false_eq_true, if_false,
          Option.some.injEq, List.set_cons_zero] at h
        subst h
        refine ⟨.submitting 0 (k + 1), { ch with buf := ch.buf ++ [t] },
          by simp [running, hopen], g.send ht, ?_⟩
        have hlt := lt_length_of_getElem? items k t ht
        unfold variant
        simp only [CallerPc.rank, List.length_append, List.length_singleton]
        omega
      · simp [hcap] at h
    | none =>
      simp only [ht, closeWorkChan, List.getElem?_cons_zero, hopen, Bool.false_eq_true,
        if_false, Option.isSome_none, Option.some.injEq, List.set_cons_zero] at h
      subst h
      refine ⟨.stopping, { ch with closed := true }, rfl, g.close ht, ?_⟩
      unfold variant
      simp only [CallerPc.rank]
      omega
  | stopping =>
    simp only [waitReturns] at h
    by_cases hz : (live ws : Int) = 0
    · simp only [hz, decide_True, if_true, Option.some.injEq] at h
      subst h
      have hl : live ws = 0 := by exact_mod_cast hz
      refine ⟨.stopped, ch, by simp [running, hz], g.wait hl, ?_⟩
      unfold variant
      simp only [CallerPc.rank]
      omega
    · simp [hz] at h
  | stopped => simp at h

/-- A rendezvous of the caller with a worker keeps the invariant and lowers the variant. -/
theorem running_handoff (g : Good p items caller ch ws tr) {r1 : Run T}
    (h : handoffStep items j (running p caller ch ws tr) = some r1) :
    ∃ caller1 ws1, r1 = running p caller1 ch ws1 tr ∧ Good p items caller1 ch ws1 tr ∧
      variant items.length caller1 ch ws1 < variant items.length caller ch ws := by
  unfold handoffStep at h
  simp only [running] at h
  cases caller with
  | submitting wc k =>
    obtain ⟨hwc, hk, hopen⟩ := g.phase
    subst hwc
    cases ht : items[k]? with
    | none => simp [ht] at h
    | some t =>
      simp only [ht, sendDirect, List.getElem?_cons_zero] at h
      cases hw : ws[j]? with
      | none => simp [hw] at h
      | some w =>
        cases w with
        | receiving c =>
          simp only [hw] at h
          by_cases hc : c = 0 ∧ ch.closed = false ∧ ch.buf.length = 0
          · simp only [hc, and_self, if_true, Option.some.injEq] at h
            obtain ⟨hc0, _, _⟩ := hc
            subst hc0
            subst h
            refine ⟨.submitting 0 (k + 1), ws.set j (.working 0 t),
              move_eq (.receiving 0) (.working 0 t) _ _ hw rfl, g.handoff ht hw, ?_⟩
            have hlt := lt_length_of_getElem? items k t ht
            have := rank_set ws j _ (.working 0 t) hw
            simp only [WorkerPc.rank] at this
            unfold variant
            simp only [CallerPc.rank]
            omega
          · rw [if_neg hc] at h
            simp at h
        | _ => simp [hw] at h
  | _ => simp at h

/-- Every step of a started lifecycle keeps the invariant and lowers the variant. -/
theorem running_step (hp : Ready p) (g : Good p items caller ch ws tr) {a : Action}
    {r1 : Run T} (h : step lim items a (running p caller ch ws tr) = some r1) :
    ∃ caller1 ch1 ws1 tr1, r1 = running p caller1 ch1 ws1 tr1 ∧
      Good p items caller1 ch1 ws1 tr1 ∧
      variant items.length caller1 ch1 ws1 < variant items.length caller ch ws := by
  unfold step at h
  have hc : (running p caller ch ws tr).sys.crashed.isSome = false := rfl
  simp only [hc, Bool.false_eq_true, if_false] at h
  cases a with
  | caller =>
    obtain ⟨caller1, ch1, h1, h2, h3⟩ := running_caller g h
    exact ⟨caller1, ch1, ws, tr, h1, h2, h3⟩
  | handoff i =>
    obtain ⟨caller1, ws1, h1, h2, h3⟩ := running_handoff g h
    exact ⟨caller1, ch, ws1, tr, h1, h2, h3⟩
  | worker i =>
    simp only [Option.map_eq_some'] at h
    obtain ⟨s1, hs, hr⟩ := h
    obtain ⟨ch1, ws1, tr1, h1, h2, h3⟩ := running_worker hp g hs
    subst hr
    exact ⟨caller, ch1, ws1, tr1, h1, h2, h3⟩

end Transitions

/-! ## From construction to the end of `Stop` -/

section Lifecycle

variable {lim : Nat} {p : WorkerPool} {items : List T}

theorem live_replicate (n : Nat) : live (List.replicate n (WorkerPc.entry : WorkerPc T)) = n := by
  induction n with
  | zero => rfl
  | succ n ih =>
    simp only [live, List.replicate_succ, List.map_cons, List.sum_cons] at ih ⊢
    rw [ih]
    simp [WorkerPc.alive, WorkerPc.isExited]
    omega

theorem held_replicate (n : Nat) : held (List.replicate n (WorkerPc.entry : WorkerPc T)) = [] := by
  induction n with
  | zero => rfl
  | succ n ih => simp only [List.replicate_succ, held, ih, heldBy, List.append_nil]

theorem not_at_replicate (P : WorkerPc T → Bool) (hP : P .entry = false) (n i : Nat) :
    ¬ At P (List.replicate n (WorkerPc.entry : WorkerPc T)) i := by
  rintro ⟨w, hw, hPw⟩
  have hmem := mem_of_getElem? _ i w hw
  rw [List.eq_of_mem_replicate hmem, hP] at hPw
  cases hPw

theorem traceInv_start (proj : List (Event T) → List Nat) (hproj : proj [] = []) (en : Bool)
    (P : WorkerPc T → Bool) (hP : P .entry = false) (n : Nat) :
    TraceInv proj en P (List.replicate n (WorkerPc.entry : WorkerPc T)) [] := by
  unfold TraceInv
  rw [hproj]
  refine ⟨List.nodup_nil, fun i => ?_⟩
  constructor
  · intro h; cases h
  · rintro ⟨_, h⟩
    exact absurd h (not_at_replicate P hP n i)

/-- The state right after `Start` is good. -/
theorem good_start (p : WorkerPool) (items : List T) :
    Good p items (.submitting 0 0)
      { cap := p.workChanBuffer.toNat, buf := [], closed := false }
      (List.replicate p.poolSize.toNat WorkerPc.entry) [] :=
  { len := List.length_replicate _ _
    ok := by
      intro w hw
      rw [List.eq_of_mem_replicate hw]
      exact ⟨trivial, by simp [WorkerPc.pastLoop]⟩
    phase := ⟨rfl, Nat.zero_le _, rfl⟩
    perm := by
      simp [submitted, held_replicate, worked]
    pre := traceInv_start _ rfl _ _ rfl _
    post := traceInv_start _ rfl _ _ rfl _
    done := traceInv_start _ rfl _ _ rfl _
    ordered := trivial }

/-- The only step of a constructed pool is the caller's `Start`: it leads to a
good started state when `make` accepts the capacity, and to the fault of
`make` otherwise. -/
theorem boot_step (hp : Ready p) {a : Action} {r1 : Run T}
    (h : step lim items a (boot p) = some r1) :
    a = .caller ∧
    ((p.workChanBuffer ≤ (lim : Int) ∧
      r1 = running p (.submitting 0 0)
        { cap := p.workChanBuffer.toNat, buf := [], closed := false }
        (List.replicate p.poolSize.toNat WorkerPc.entry) []) ∨
     ((lim : Int) < p.workChanBuffer ∧ r1 = refused p)) := by
  have hb : ¬ p.workChanBuffer < 0 := not_lt.mpr hp.buffer
  have hwg : p.wg = ((live (List.replicate p.poolSize.toNat (WorkerPc.entry : WorkerPc T)) : Nat)
      : Int) := by
    rw [live_replicate, hp.wg, Int.toNat_of_nonneg (by have := hp.size; omega)]
  cases a with
  | caller =>
    refine ⟨rfl, ?_⟩
    by_cases hc : (lim : Int) < p.workChanBuffer
    · right
      refine ⟨hc, ?_⟩
      simp only [step, boot, callerStep, Start, hc, or_true, if_true, State.crash,
        Option.isSome_none, Option.isSome_some, Bool.false_eq_true, if_false,
        Option.some.injEq] at h
      subst h
      rfl
    · left
      refine ⟨not_lt.mp hc, ?_⟩
      simp only [step, boot, callerStep, Start, hb, hc, or_self, if_false, Option.isSome_none,
        Bool.false_eq_true, List.length_nil, List.nil_append, Option.some.injEq] at h
      subst h
      simp only [running, ← hwg]
  | handoff i => simp [step, boot, handoffStep] at h
  | worker i => simp [step, boot, workerStep] at h

theorem inv_step (hp : Ready p) {a : Action} {r r1 : Run T} (hi : Inv p items r)
    (h : step lim items a r = some r1) : Inv p items r1 := by
  rcases hi with hi | hi | ⟨caller, ch, ws, tr, hr, g⟩
  · subst hi
    rcases (boot_step hp h).2 with ⟨_, h1⟩ | ⟨_, h1⟩
    · exact Or.inr (Or.inr ⟨_, _, _, _, h1, good_start p items⟩)
    · exact Or.inr (Or.inl h1)
  · subst hi
    simp [step, refused] at h
  · subst hr
    obtain ⟨caller1, ch1, ws1, tr1, h1, g1, _⟩ := running_step hp g h
    exact Or.inr (Or.inr ⟨caller1, ch1, ws1, tr1, h1, g1⟩)

theorem inv_exec (hp : Ready p) (acts : List Action) {r r1 : Run T} (hi : Inv p items r)
    (h : exec lim items acts r = some r1) : Inv p items r1 := by
  induction acts generalizing r with
  | nil =>
    simp only [exec, Option.some.injEq] at h
    subst h
    exact hi
  | cons a rest ih =>
    simp only [exec] at h
    cases hs : step lim items a r with
    | none => simp [hs] at h
    | some r2 =>
      simp only [hs] at h
      exact ih (inv_step hp hi hs) h

theorem exec_cons_of_step {a : Action} {r r1 : Run T} (acts : List Action)
    (h : step lim items a r = some r1) : exec lim items (a :: acts) r = exec lim items acts r1 := by
  simp only [exec, h]

/-- A worker that has not ended can step, unless it waits on an open, empty channel. -/
theorem worker_enabled {caller : CallerPc} {ch : Chan T} {ws : List (WorkerPc T)}
    {tr : List (Event T)} {j : Nat} {w : WorkerPc T} (hw : ws[j]? = some w)
    (hlive : w.isExited = false)
    (hrecv : ∀ c, w = .receiving c → c = 0 ∧ (ch.buf ≠ [] ∨ ch.closed = true)) :
    ∃ r1, step lim items (.worker j) (running p caller ch ws tr) = some r1 := by
  have hstep : (workerStep j (running p caller ch ws tr).sys).isSome = true →
      ∃ r1, step lim items (.worker j) (running p caller ch ws tr) = some r1 := by
    intro hs
    obtain ⟨s1, hs1⟩ := Option.isSome_iff_exists.mp hs
    refine ⟨{ caller := caller, sys := s1 }, ?_⟩
    simp only [step]
    rw [hs1]
    rfl
  cases w with
  | entry =>
    cases hpre : p.preworkFunc with
    | none => exact hstep (by simp [workerStep, running, hw, hpre])
    | some f => exact hstep (by simp [workerStep, running, hw, hpre])
  | ranging => exact hstep (by simp [workerStep, running, hw])
  | receiving c =>
    obtain ⟨hc, hch⟩ := hrecv c rfl
    subst hc
    cases hbuf : ch.buf with
    | nil =>
      rcases hch with hne | hcl
      · exact absurd hbuf hne
      · exact hstep (by simp [workerStep, running, hw, hbuf, hcl])
    | cons t rest => exact hstep (by simp [workerStep, running, hw, hbuf])
  | working c t =>
    cases hwf : p.workFunc with
    | none => exact hstep (by simp [workerStep, running, hw, hwf])
    | some f => exact hstep (by simp [workerStep, running, hw, hwf])
  | leaving =>
    cases hpost : p.postworkFunc with
    | none => exact hstep (by simp [workerStep, running, hw, hpost])
    | some f => exact hstep (by simp [workerStep, running, hw, hpost])
  | deferred =>
    cases hadd : WaitGroup.Add (live ws : Int) (-1) with
    | error f => exact hstep (by simp [workerStep, running, hw, hadd])
    | ok n => exact hstep (by simp [workerStep, running, hw, hadd])
  | exited => simp [WorkerPc.isExited] at hlive

theorem exists_live (ws : List (WorkerPc T)) (h : live ws ≠ 0) :
    ∃ (j : Nat) (w : WorkerPc T), ws[j]? = some w ∧ w.isExited = false := by
  induction ws with
  | nil => exact absurd rfl h
  | cons w ws ih =>
    cases hw : w.isExited with
    | false => exact ⟨0, w, List.getElem?_cons_zero, hw⟩
    | true =>
      have : live ws ≠ 0 := by
        intro h0
        apply h
        simp only [live, List.map_cons, List.sum_cons, WorkerPc.alive, hw, if_true] at h0 ⊢
        omega
      obtain ⟨j, w1, h1, h2⟩ := ih this
      exact ⟨j + 1, w1, by simpa using h1, h2⟩

theorem exists_of_isSome {α : Type} {x : Option α} (h : x.isSome = true) : ∃ a, x = some a :=
  Option.isSome_iff_exists.mp h

/-- A started lifecycle that has not reached the end of `Stop` can take a step. -/
theorem progress (hp : Ready p) {caller : CallerPc} {ch : Chan T} {ws : List (WorkerPc T)}
    {tr : List (Event T)} (g : Good p items caller ch ws tr) (hns : caller ≠ .stopped) :
    ∃ a r1, step lim items a (running p caller ch ws tr) = some r1 := by
  cases caller with
  | created => exact absurd g.phase id
  | stopped => exact absurd rfl hns
  | submitting wc k =>
    obtain ⟨hwc, hk, hopen⟩ := g.phase
    subst hwc
    cases ht : items[k]? with
    | none =>
      exact ⟨.caller, exists_of_isSome
        (by simp [step, running, callerStep, ht, closeWorkChan, hopen])⟩
    | some t =>
      have hlen : 0 < ws.length := by
        rw [g.len]
        have := hp.size
        omega
      have hw : ws[0]? = some ws[0] := List.getElem?_eq_getElem hlen
      have hok := g.ok _ (mem_of_getElem? ws 0 _ hw)
      have hnotpast : (ws[0]).pastLoop = false := by
        cases hpl : (ws[0]).pastLoop with
        | false => rfl
        | true =>
          have := (hok.2 hpl).2
          rw [hopen] at this
          cases this
      by_cases hrecv : ∃ c, ws[0] = .receiving c
      · obtain ⟨c, hc⟩ := hrecv
        rw [hc] at hw hok
        have hc0 : c = 0 := hok.1
        subst hc0
        cases hbuf : ch.buf with
        | nil =>
          exact ⟨.handoff 0, exists_of_isSome
            (by simp [step, running, handoffStep, ht, sendDirect, hw, hopen, hbuf])⟩
        | cons t1 rest =>
          exact ⟨.worker 0, worker_enabled hw rfl
            (fun c hc1 => ⟨by cases hc1; rfl, Or.inl (by rw [hbuf]; simp)⟩)⟩
      · refine ⟨.worker 0, worker_enabled hw ?_ (fun c hc => absurd ⟨c, hc⟩ hrecv)⟩
        cases hw0 : ws[0] with
        | exited => rw [hw0] at hnotpast; cases hnotpast
        | _ => rfl
  | stopping =>
    have hcl : ch.closed = true := g.phase
    by_cases hz : live ws = 0
    · exact ⟨.caller, exists_of_isSome (by simp [step, running, callerStep, waitReturns, hz])⟩
    · obtain ⟨j, w, hw, hlive⟩ := exists_live ws hz
      have hok := g.ok _ (mem_of_getElem? ws j _ hw)
      refine ⟨.worker j, worker_enabled hw hlive (fun c hc => ?_)⟩
      rw [hc] at hok
      exact ⟨hok.1, Or.inr hcl⟩

/-- Every started lifecycle can be scheduled to the end of `Stop`. -/
theorem reaches_stopped (hp : Ready p) (n : Nat) :
    ∀ (caller : CallerPc) (ch : Chan T) (ws : List (WorkerPc T)) (tr : List (Event T)),
      Good p items caller ch ws tr → variant items.length caller ch ws ≤ n →
      ∃ acts r, exec lim items acts (running p caller ch ws tr) = some r ∧ r.caller = .stopped := by
  induction n with
  | zero =>
    intro caller ch ws tr g hv
    by_cases hs : caller = .stopped
    · exact ⟨[], _, rfl, hs⟩
    · obtain ⟨a, r1, h1⟩ : ∃ a r1, step lim items a (running p caller ch ws tr) = some r1 :=
        progress hp g hs
      obtain ⟨_, _, _, _, _, _, hlt⟩ := running_step hp g h1
      omega
  | succ n ih =>
    intro caller ch ws tr g hv
    by_cases hs : caller = .stopped
    · exact ⟨[], _, rfl, hs⟩
    · obtain ⟨a, r1, h1⟩ : ∃ a r1, step lim items a (running p caller ch ws tr) = some r1 :=
        progress hp g hs
      obtain ⟨caller1, ch1, ws1, tr1, hr1, g1, hlt⟩ := running_step hp g h1
      obtain ⟨acts, r, hex, hst⟩ := ih caller1 ch1 ws1 tr1 g1 (by omega)
      refine ⟨a :: acts, r, ?_, hst⟩
      rw [exec_cons_of_step acts h1, hr1]
      exact hex

theorem boot_start (hp : Ready p) (hcap : p.workChanBuffer ≤ (lim : Int)) :
    step lim items .caller (boot p) = some (running p (.submitting 0 0)
      { cap := p.workChanBuffer.toNat, buf := [], closed := false }
      (List.replicate p.poolSize.toNat WorkerPc.entry) []) := by
  obtain ⟨r1, h1⟩ : ∃ r1, step lim items .caller (boot p) = some r1 := by
    have hb : ¬ p.workChanBuffer < 0 := not_lt.mpr hp.buffer
    have hc : ¬ (lim : Int) < p.workChanBuffer := not_lt.mpr hcap
    exact exists_of_isSome (by simp [step, boot, callerStep, Start, hb, hc])
  rcases (boot_step hp h1).2 with ⟨_, h2⟩ | ⟨h2, _⟩
  · rw [h1, h2]
  · omega

/-- A constructed pool whose capacity `make` accepts can be run through its
whole lifecycle: some schedule reaches the point where `Stop` has returned. -/
theorem lifecycle_completes (hp : Ready p) (hcap : p.workChanBuffer ≤ (lim : Int))
    (items : List T) :
    ∃ acts r, exec lim items acts (boot p) = some r ∧ r.caller = .stopped := by
  obtain ⟨acts, r, hex, hst⟩ : ∃ acts r, exec lim items acts (running p (.submitting 0 0)
      { cap := p.workChanBuffer.toNat, buf := [], closed := false }
      (List.replicate p.poolSize.toNat WorkerPc.entry) []) = some r ∧ r.caller = .stopped :=
    reaches_stopped hp _ _ _ _ _ (good_start p items) (le_refl _)
  exact ⟨.caller :: acts, r, by rw [exec_cons_of_step acts (boot_start hp hcap)]; exact hex, hst⟩

/-- A state reached after `Start` is a good started state. -/
theorem started_of_exec (hp : Ready p) {acts : List Action} {r : Run T}
    (h : exec lim items acts (boot p) = some r) (hc : r.caller ≠ .created) :
    ∃ ch ws tr, r = running p r.caller ch ws tr ∧ Good p items r.caller ch ws tr := by
  rcases inv_exec hp acts (Or.inl rfl) h with hb | hb | ⟨caller, ch, ws, tr, hr, g⟩
  · rw [hb] at hc
    exact absurd rfl hc
  · rw [hb] at hc
    exact absurd rfl hc
  · subst hr
    exact ⟨ch, ws, tr, rfl, g⟩

/-- From a good started state only good started states are reached. -/
theorem exec_running (hp : Ready p) (acts : List Action) :
    ∀ (caller : CallerPc) (ch : Chan T) (ws : List (WorkerPc T)) (tr : List (Event T))
      (r : Run T), Good p items caller ch ws tr →
      exec lim items acts (running p caller ch ws tr) = some r →
      ∃ caller1 ch1 ws1 tr1, r = running p caller1 ch1 ws1 tr1 ∧
        Good p items caller1 ch1 ws1 tr1 := by
  induction acts with
  | nil =>
    intro caller ch ws tr r g h
    simp only [exec, Option.some.injEq] at h
    exact ⟨caller, ch, ws, tr, h.symm, g⟩
  | cons a rest ih =>
    intro caller ch ws tr r g h
    simp only [exec] at h
    cases hs : step lim items a (running p caller ch ws tr) with
    | none => simp [hs] at h
    | some r1 =>
      simp only [hs] at h
      obtain ⟨caller1, ch1, ws1, tr1, hr1, g1, _⟩ := running_step hp g hs
      rw [hr1] at h
      exact ih caller1 ch1 ws1 tr1 r g1 h

/-- When `make` accepts the capacity every state of the lifecycle is the
constructed pool or a good started state. -/
theorem exec_cap (hp : Ready p) (hcap : p.workChanBuffer ≤ (lim : Int)) (acts : List Action)
    {r : Run T} (h : exec lim items acts (boot p) = some r) :
    r = boot p ∨
      ∃ caller ch ws tr, r = running p caller ch ws tr ∧ Good p items caller ch ws tr := by
  cases acts with
  | nil =>
    simp only [exec, Option.some.injEq] at h
    exact Or.inl h.symm
  | cons a rest =>
    simp only [exec] at h
    cases hs : step lim items a (boot p) with
    | none => simp [hs] at h
    | some r1 =>
      simp only [hs] at h
      rcases (boot_step hp hs).2 with ⟨_, h2⟩ | ⟨h2, _⟩
      · rw [h2] at h
        exact Or.inr (exec_running hp rest _ _ _ _ r (good_start p items) h)
      · omega

theorem newWorkerPool_ready (intSize : Nat) (wf : WorkFunc) (opts : List OptionCall)
    (p : WorkerPool)
    (h : NewWorkerPool (some wf) (opts.map (OptionCall.build intSize)) = .pool p)
    (hfit : p.poolSize < 2 ^ 31) : Ready p := by
  obtain ⟨h1, _, h3, _, h4, h5⟩ := newWorkerPool_pool intSize (some wf) opts p h
  have hfit1 : p.poolSize < 2147483648 := by norm_num at hfit; exact hfit
  exact ⟨by rw [h1]; rfl, h4, hfit1, h5, by rw [h3, toInt32_of_fit _ (by omega) hfit1]⟩

/-! ## What holds once `Stop` has returned -/

theorem isExited_eq (w : WorkerPc T) (h : w.isExited = true) : w = .exited := by
  cases w <;> first | rfl | cases h

theorem all_exited_of_live_zero (ws : List (WorkerPc T)) (h : live ws = 0) :
    ∀ w ∈ ws, w = .exited := by
  induction ws with
  | nil => intro w hw; cases hw
  | cons x ws ih =>
    simp only [live, List.map_cons, List.sum_cons] at h
    have hx : x.alive = 0 := by omega
    have hrest : live ws = 0 := by unfold live; omega
    intro w hw
    rcases List.mem_cons.mp hw with h1 | h1
    · rw [h1]
      cases hex : x.isExited with
      | true => exact isExited_eq x hex
      | false => simp [WorkerPc.alive, hex] at hx
    · exact ih hrest w h1

theorem held_of_exited (ws : List (WorkerPc T)) (h : ∀ w ∈ ws, w = .exited) : held ws = [] := by
  induction ws with
  | nil => rfl
  | cons x ws ih =>
    have hx : x = .exited := h x (List.mem_cons_self _ _)
    subst hx
    simp only [held, heldBy, List.nil_append]
    exact ih (fun w hw => h w (List.mem_cons_of_mem _ hw))

theorem at_iff_lt (P : WorkerPc T → Bool) (ws : List (WorkerPc T))
    (h : ∀ w ∈ ws, P w = true) (i : Nat) : At P ws i ↔ i < ws.length := by
  constructor
  · rintro ⟨w, hw, _⟩
    exact lt_length_of_getElem? ws i w hw
  · intro hi
    have hw : ws[i]? = some ws[i] := List.getElem?_eq_getElem hi
    exact ⟨ws[i], hw, h _ (mem_of_getElem? ws i _ hw)⟩

/-- When the call is enabled and every worker is past it, each worker made it once. -/
theorem traceInv_perm (proj : List (Event T) → List Nat) (P : WorkerPc T → Bool)
    (ws : List (WorkerPc T)) (tr : List (Event T)) (h : TraceInv proj true P ws tr)
    (hall : ∀ w ∈ ws, P w = true) : (proj tr).Perm (List.range ws.length) := by
  refine (List.perm_ext_iff_of_nodup h.1 (List.nodup_range _)).mpr (fun i => ?_)
  rw [h.2 i, at_iff_lt P ws hall i, List.mem_range]
  simp

/-- When the call is not enabled nobody made it. -/
theorem traceInv_nil (proj : List (Event T) → List Nat) (P : WorkerPc T → Bool)
    (ws : List (WorkerPc T)) (tr : List (Event T)) (h : TraceInv proj false P ws tr) :
    proj tr = [] := by
  refine List.eq_nil_iff_forall_not_mem.mpr (fun i hi => ?_)
  have := ((h.2 i).mp hi).1
  cases this

theorem ordered_suffix (pre post : Bool) (newer older : List (Event T))
    (h : Ordered pre post (newer ++ older)) : Ordered pre post older := by
  induction newer with
  | nil => exact h
  | cons e rest ih =>
    cases e with
    | prework i => exact ih h
    | work i t => exact ih h.2.2.2
    | postwork i => exact ih h.2
    | done i => exact ih h.2

theorem eq_replicate_of_all (ws : List (WorkerPc T)) (h : ∀ w ∈ ws, w = .exited) :
    ws = List.replicate ws.length .exited :=
  List.eq_replicate_iff.mpr ⟨rfl, h⟩

/-- The facts of a lifecycle whose `Stop` has returned. -/
theorem Good.final (hp : Ready p) {ch : Chan T} {ws : List (WorkerPc T)} {tr : List (Event T)}
    (g : Good p items .stopped ch ws tr) :
    ws = List.replicate p.poolSize.toNat .exited ∧ live ws = 0 ∧ ch.buf = [] ∧
      ch.closed = true ∧ (worked tr).Perm items ∧
      (doners tr).Perm (List.range p.poolSize.toNat) ∧
      (p.preworkFunc.isSome = true → (preworkers tr).Perm (List.range p.poolSize.toNat)) ∧
      (p.postworkFunc.isSome = true → (postworkers tr).Perm (List.range p.poolSize.toNat)) := by
  obtain ⟨hcl, hl⟩ := g.phase
  have hall := all_exited_of_live_zero ws hl
  have hlen := g.len
  have hpos : 0 < ws.length := by
    rw [hlen]
    have := hp.size
    omega
  have hw0 : ws[0]? = some ws[0] := List.getElem?_eq_getElem hpos
  have hmem0 := mem_of_getElem? ws 0 _ hw0
  have hbuf : ch.buf = [] := ((g.ok _ hmem0).2 (by rw [hall _ hmem0]; rfl)).1
  have hperm := g.perm
  simp only [submitted, hbuf, held_of_exited ws hall, List.nil_append] at hperm
  refine ⟨by rw [← hlen]; exact eq_replicate_of_all ws hall, hl, hbuf, hcl, hperm.symm, ?_,
    fun he => ?_, fun he => ?_⟩
  · rw [← hlen]
    exact traceInv_perm _ _ ws tr g.done (fun w hw => by rw [hall w hw]; rfl)
  · rw [← hlen]
    have h := g.pre
    rw [he] at h
    exact traceInv_perm _ _ ws tr h (fun w hw => by rw [hall w hw]; rfl)
  · rw [← hlen]
    have h := g.post
    rw [he] at h
    exact traceInv_perm _ _ ws tr h (fun w hw => by rw [hall w hw]; rfl)

theorem live_append (xs ys : List (WorkerPc T)) : live (xs ++ ys) = live xs + live ys := by
  simp [live, List.map_append, List.sum_append]

theorem rank_replicate (n : Nat) :
    ((List.replicate n (WorkerPc.entry : WorkerPc T)).map WorkerPc.rank).sum = 6 * n := by
  induction n with
  | zero => rfl
  | succ n ih =>
    simp only [List.replicate_succ, List.map_cons, List.sum_cons, ih, WorkerPc.rank]
    omega

/-- A schedule of a started lifecycle is no longer than the variant allows. -/
theorem exec_bound (hp : Ready p) (acts : List Action) :
    ∀ (caller : CallerPc) (ch : Chan T) (ws : List (WorkerPc T)) (tr : List (Event T))
      (r : Run T), Good p items caller ch ws tr →
      exec lim items acts (running p caller ch ws tr) = some r →
      acts.length ≤ variant items.length caller ch ws := by
  induction acts with
  | nil => intro caller ch ws tr r _ _; exact Nat.zero_le _
  | cons a rest ih =>
    intro caller ch ws tr r g h
    simp only [exec] at h
    cases hs : step lim items a (running p caller ch ws tr) with
    | none => simp [hs] at h
    | some r1 =>
      simp only [hs] at h
      obtain ⟨caller1, ch1, ws1, tr1, hr1, g1, hlt⟩ := running_step hp g hs
      rw [hr1] at h
      have := ih caller1 ch1 ws1 tr1 r g1 h
      simp only [List.length_cons]
      omega

theorem exec_refused {acts : List Action} {r : Run T}
    (h : exec lim items acts (refused p) = some r) : acts = [] ∧ r = refused p := by
  cases acts with
  | nil =>
    simp only [exec, Option.some.injEq] at h
    exact ⟨rfl, h.symm⟩
  | cons a rest => simp [exec, step, refused] at h

/-- Every schedule of the lifecycle is finite, with a bound that depends on the
number of items and of workers only. -/
theorem exec_length_le (hp : Ready p) {acts : List Action} {r : Run T}
    (h : exec lim items acts (boot p) = some r) :
    acts.length ≤ 3 * items.length + 6 * p.poolSize.toNat + 3 := by
  cases acts with
  | nil => exact Nat.zero_le _
  | cons a rest =>
    simp only [exec] at h
    cases hs : step lim items a (boot p) with
    | none => simp [hs] at h
    | some r1 =>
      simp only [hs] at h
      rcases (boot_step hp hs).2 with ⟨_, h2⟩ | ⟨_, h2⟩
      · rw [h2] at h
        have := exec_bound hp rest _ _ _ _ r (good_start p items) h
        simp only [variant, CallerPc.rank, rank_replicate, List.length_nil] at this
        simp only [List.length_cons]
        omega
      · rw [h2] at h
        rw [(exec_refused h).1]
        simp only [List.length_cons, List.length_nil]
        omega

/-- A lifecycle whose `Stop` has not returned is never stuck, when `make`
accepts the capacity. -/
theorem exec_not_stuck (hp : Ready p) (hcap : p.workChanBuffer ≤ (lim : Int))
    {acts : List Action} {r : Run T}
    (h : exec lim items acts (boot p) = some r) (hns : r.caller ≠ .stopped) :
    ∃ a r1, step lim items a r = some r1 := by
  rcases exec_cap hp hcap acts h with hb | ⟨caller, ch, ws, tr, hr, g⟩
  · subst hb
    exact ⟨.caller, _, boot_start hp hcap⟩
  · subst hr
    exact progress hp g hns

/-- No state of the lifecycle is a fault, when `make` accepts the capacity. -/
theorem exec_not_crashed (hp : Ready p) (hcap : p.workChanBuffer ≤ (lim : Int))
    {acts : List Action} {r : Run T}
    (h : exec lim items acts (boot p) = some r) : r.sys.crashed = none := by
  rcases exec_cap hp hcap acts h with hb | ⟨caller, ch, ws, tr, hr, g⟩
  · subst hb; rfl
  · subst hr; rfl

/-- The facts of the trace in every state a lifecycle reaches. -/
theorem reached_facts (hp : Ready p) {acts : List Action} {r : Run T}
    (h : exec lim items acts (boot p) = some r) :
    (preworkers r.sys.trace).Nodup ∧ (postworkers r.sys.trace).Nodup ∧
      (doners r.sys.trace).Nodup ∧
      Ordered p.preworkFunc.isSome p.postworkFunc.isSome r.sys.trace ∧
      (p.preworkFunc.isSome = false → preworkers r.sys.trace = []) ∧
      (p.postworkFunc.isSome = false → postworkers r.sys.trace = []) := by
  rcases inv_exec hp acts (Or.inl rfl) h with hb | hb | ⟨caller, ch, ws, tr, hr, g⟩
  · subst hb
    exact ⟨List.nodup_nil, List.nodup_nil, List.nodup_nil, trivial, fun _ => rfl,
      fun _ => rfl⟩
  · subst hb
    exact ⟨List.nodup_nil, List.nodup_nil, List.nodup_nil, trivial, fun _ => rfl,
      fun _ => rfl⟩
  · subst hr
    refine ⟨g.pre.1, g.post.1, g.done.1, g.ordered, fun he => ?_, fun he => ?_⟩
    · have h1 := g.pre
      rw [he] at h1
      exact traceInv_nil _ _ ws tr h1
    · have h1 := g.post
      rw [he] at h1
      exact traceInv_nil _ _ ws tr h1

end Lifecycle

/-! ## The pool's channel, for every constructed pool -/

section Wiring

variable {lim : Nat} {p : WorkerPool} {items : List T}

/-- A step of a worker leaves the pool's settings and channel reference alone,
and either leaves the channels alone or takes an item off one of them. -/
theorem workerStep_frame {i : Nat} {s s1 : State T} (h : workerStep i s = some s1) :
    s1.pool.workChanBuffer = s.pool.workChanBuffer ∧ s1.pool.poolSize = s.pool.poolSize ∧
      s1.pool.workChan = s.pool.workChan ∧
      (s1.chans = s.chans ∨
        ∃ c ch t rest, s.chans[c]? = some ch ∧ ch.buf = t :: rest ∧
          s1.chans = s.chans.set c { ch with buf := rest }) := by
  unfold workerStep at h
  cases hw : s.workers[i]? with
  | none => simp [hw] at h
  | some w =>
    simp only [hw] at h
    cases w with
    | entry =>
      simp only at h
      split at h <;>
        (simp only [Option.some.injEq] at h; subst h; exact ⟨rfl, rfl, rfl, Or.inl rfl⟩)
    | ranging =>
      simp only at h
      split at h
      · cases h
      · simp only [Option.some.injEq] at h
        subst h
        exact ⟨rfl, rfl, rfl, Or.inl rfl⟩
    | receiving c =>
      simp only at h
      cases hc : s.chans[c]? with
      | none => simp [hc] at h
      | some ch =>
        simp only [hc] at h
        cases hbuf : ch.buf with
        | nil =>
          simp only [hbuf] at h
          split at h
          · simp only [Option.some.injEq] at h
            subst h
            exact ⟨rfl, rfl, rfl, Or.inl rfl⟩
          · cases h
        | cons t rest =>
          simp only [hbuf, Option.some.injEq] at h
          subst h
          exact ⟨rfl, rfl, rfl, Or.inr ⟨c, ch, t, rest, hc, hbuf, rfl⟩⟩
    | working c t =>
      simp only at h
      split at h <;>
        (simp only [Option.some.injEq] at h; subst h; exact ⟨rfl, rfl, rfl, Or.inl rfl⟩)
    | leaving =>
      simp only at h
      split at h <;>
        (simp only [Option.some.injEq] at h; subst h; exact ⟨rfl, rfl, rfl, Or.inl rfl⟩)
    | deferred =>
      simp only at h
      split at h <;>
        (simp only [Option.some.injEq] at h; subst h; exact ⟨rfl, rfl, rfl, Or.inl rfl⟩)
    | exited => simp at h

/-- A step of a worker keeps a single channel single and as closed as it was. -/
theorem workerStep_single {i : Nat} {s s1 : State T} {ch : Chan T}
    (h : workerStep i s = some s1) (hch : s.chans = [ch]) :
    ∃ ch1, s1.chans = [ch1] ∧ ch1.closed = ch.closed := by
  rcases (workerStep_frame h).2.2.2 with h1 | ⟨c, ch0, t, rest, hc, _, h1⟩
  · exact ⟨ch, by rw [h1, hch], rfl⟩
  · rw [hch] at hc h1
    cases c with
    | zero =>
      simp only [List.getElem?_cons_zero, Option.some.injEq] at hc
      subst hc
      exact ⟨_, h1, rfl⟩
    | succ c => simp at hc

theorem wired_boot (lim : Nat) (p : WorkerPool) : Wired lim p (boot p : Run T) :=
  ⟨rfl, rfl, rfl, rfl⟩

theorem wired_step {a : Action} {r r1 : Run T} (hw : Wired lim p r)
    (h : step lim items a r = some r1) : Wired lim p r1 := by
  obtain ⟨hbuf, hsize, hw⟩ := hw
  unfold step at h
  split at h
  · cases h
  · rename_i hnc
    cases a with
    | caller =>
      simp only at h
      unfold callerStep at h
      cases hc : r.caller with
      | created =>
        simp only [hc] at hw h
        obtain ⟨hch, hwc⟩ := hw
        by_cases hcond : r.sys.pool.workChanBuffer < 0 ∨ (lim : Int) < r.sys.pool.workChanBuffer
        · simp only [Start, hcond, if_true, State.crash, Option.isSome_some, if_true,
            Option.some.injEq] at h
          subst h
          refine ⟨hbuf, hsize, ?_⟩
          simp only [hc]
          exact ⟨hch, hwc⟩
        · simp only [Start, hcond, if_false, hnc, Bool.false_eq_true, Option.some.injEq] at h
          subst h
          refine ⟨hbuf, hsize, by rw [hch]; rfl, by rw [hch]; rfl,
            ⟨_, by rw [hch]; rfl⟩, by omega, by omega⟩
      | submitting wc k =>
        simp only [hc] at hw h
        obtain ⟨hwc, hchan, ⟨ch, hch⟩, hacc⟩ := hw
        subst hwc
        cases ht : items[k]? with
        | some t =>
          simp only [ht, sendBuffered, hch, List.getElem?_cons_zero] at h
          by_cases hcl : ch.closed = true
          · simp only [hcl, if_true, State.crash, Option.isSome_some, Option.some.injEq] at h
            subst h
            refine ⟨hbuf, hsize, ?_⟩
            simp only [hc]
            exact ⟨trivial, hchan, ⟨ch, hch⟩, hacc⟩
          · simp only [hcl, Bool.false_eq_true, if_false] at h
            by_cases hcap : ch.buf.length < ch.cap
            · simp only [hcap, if_true, List.set_cons_zero] at h
              split at h
              · simp only [Option.some.injEq] at h
                subst h
                refine ⟨hbuf, hsize, ?_⟩
                simp only [hc]
                exact ⟨trivial, hchan, ⟨_, rfl⟩, hacc⟩
              · simp only [Option.some.injEq] at h
                subst h
                exact ⟨hbuf, hsize, rfl, hchan, ⟨_, rfl⟩, hacc⟩
            · simp [hcap] at h
        | none =>
          simp only [ht, closeWorkChan, hchan, hch, List.getElem?_cons_zero] at h
          by_cases hcl : ch.closed = true
          · simp only [hcl, if_true, State.crash, Option.isSome_some, Option.some.injEq] at h
            subst h
            refine ⟨hbuf, hsize, ?_⟩
            simp only [hc]
            exact ⟨trivial, hchan, ⟨ch, hch⟩, hacc⟩
          · simp only [hcl, Bool.false_eq_true, if_false, List.set_cons_zero] at h
            split at h
            · simp only [Option.some.injEq] at h
              subst h
              refine ⟨hbuf, hsize, ?_⟩
              simp only [hc]
              exact ⟨trivial, hchan, ⟨_, rfl⟩, hacc⟩
            · simp only [Option.some.injEq] at h
              subst h
              exact ⟨hbuf, hsize, hchan, ⟨_, rfl, rfl⟩, hacc⟩
      | stopping =>
        simp only [hc] at hw h
        split at h
        · simp only [Option.some.injEq] at h
          subst h
          exact ⟨hbuf, hsize, hw⟩
        · cases h
      | stopped => simp [hc] at h
    | handoff i =>
      simp only at h
      unfold handoffStep at h
      cases hc : r.caller with
      | submitting wc k =>
        simp only [hc] at hw h
        cases ht : items[k]? with
        | none => simp [ht] at h
        | some t =>
          simp only [ht] at h
          cases hs : sendDirect wc t i r.sys with
          | none => simp [hs] at h
          | some s1 =>
            simp only [hs, Option.some.injEq] at h
            subst h
            have hfr : s1.pool = r.sys.pool ∧ s1.chans = r.sys.chans := by
              unfold sendDirect at hs
              split at hs
              · split at hs
                · simp only [Option.some.injEq] at hs
                  subst hs
                  exact ⟨rfl, rfl⟩
                · cases hs
              · cases hs
            refine ⟨by rw [hfr.1]; exact hbuf, by rw [hfr.1]; exact hsize, ?_⟩
            simp only [hfr.1, hfr.2]
            exact hw
      | created => simp [hc] at h
      | stopping => simp [hc] at h
      | stopped => simp [hc] at h
    | worker i =>
      simp only [Option.map_eq_some'] at h
      obtain ⟨s1, hs, hr⟩ := h
      subst hr
      obtain ⟨f1, f2, f3, _⟩ := workerStep_frame hs
      refine ⟨f1.trans hbuf, f2.trans hsize, ?_⟩
      cases hc : r.caller with
      | created =>
        simp only [hc] at hw ⊢
        refine ⟨?_, f3.trans hw.2⟩
        rcases (workerStep_frame hs).2.2.2 with h1 | ⟨c, ch0, t, rest, hcx, _, _⟩
        · rw [h1]; exact hw.1
        · rw [hw.1] at hcx
          simp at hcx
      | submitting wc k =>
        simp only [hc] at hw ⊢
        obtain ⟨hwc, hchan, ⟨ch, hch⟩, hacc⟩ := hw
        obtain ⟨ch1, hch1, _⟩ := workerStep_single hs hch
        exact ⟨hwc, f3.trans hchan, ⟨ch1, hch1⟩, hacc⟩
      | stopping =>
        simp only [hc] at hw ⊢
        obtain ⟨hchan, ⟨ch, hch, hcl⟩, hacc⟩ := hw
        obtain ⟨ch1, hch1, hcl1⟩ := workerStep_single hs hch
        exact ⟨f3.trans hchan, ⟨ch1, hch1, hcl1.trans hcl⟩, hacc⟩
      | stopped =>
        simp only [hc] at hw ⊢
        obtain ⟨hchan, ⟨ch, hch, hcl⟩, hacc⟩ := hw
        obtain ⟨ch1, hch1, hcl1⟩ := workerStep_single hs hch
        exact ⟨f3.trans hchan, ⟨ch1, hch1, hcl1.trans hcl⟩, hacc⟩

theorem wired_exec (acts : List Action) {r r1 : Run T} (hw : Wired lim p r)
    (h : exec lim items acts r = some r1) : Wired lim p r1 := by
  induction acts generalizing r with
  | nil =>
    simp only [exec, Option.some.injEq] at h
    subst h
    exact hw
  | cons a rest ih =>
    simp only [exec] at h
    cases hs : step lim items a r with
    | none => simp [hs] at h
    | some r2 =>
      simp only [hs] at h
      exact ih (wired_step hw hs) h

end Wiring

/-! ## A counter at 0 when `Start` is called -/

/-- With the counter at 0, one item and a buffer for it, the caller alone runs
`Start`, the send and `Stop` to its return: `Wait` does not wait for any of
the workers launched. -/
theorem early_return_one (lim : Nat) (p : WorkerPool) (t : T) (hwg : p.wg = 0)
    (hb0 : 1 ≤ p.workChanBuffer) (hb1 : p.workChanBuffer ≤ (lim : Int)) :
    exec lim [t] [.caller, .caller, .caller, .caller] (boot p) = some
      { caller := .stopped
        sys :=
          { pool := { p with workChan := some 0 }
            chans := [{ cap := p.workChanBuffer.toNat, buf := [t], closed := true }]
            workers := List.replicate p.poolSize.toNat .entry
            trace := []
            crashed := none } } := by
  have hc : ¬ (p.workChanBuffer < 0 ∨ (lim : Int) < p.workChanBuffer) := by omega
  have hpos : 0 < p.workChanBuffer.toNat := by omega
  simp [exec, step, boot, callerStep, Start, hc, sendBuffered, closeWorkChan, waitReturns, hwg,
    hpos]

/-- With the counter at 0 and no item, the caller alone runs `Start` and `Stop`
to its return. -/
theorem early_return_none (lim : Nat) (p : WorkerPool) (hwg : p.wg = 0)
    (hb0 : 0 ≤ p.workChanBuffer) (hb1 : p.workChanBuffer ≤ (lim : Int)) :
    exec lim ([] : List T) [.caller, .caller, .caller] (boot p) = some
      { caller := .stopped
        sys :=
          { pool := { p with workChan := some 0 }
            chans := [{ cap := p.workChanBuffer.toNat, buf := [], closed := true }]
            workers := List.replicate p.poolSize.toNat .entry
            trace := []
            crashed := none } } := by
  have hc : ¬ (p.workChanBuffer < 0 ∨ (lim : Int) < p.workChanBuffer) := by omega
  simp [exec, step, boot, callerStep, Start, hc, closeWorkChan, waitReturns, hwg]

/-! ## The lifecycle: the claims -/

/-- C3: for a pool constructed with a worker count below `2^31`, any queue
capacity and any finite list of items, whenever `Stop` has returned the work
function has been called exactly once for each submitted item (the items it
was called on are a rearrangement of the submitted ones), and when `make`
accepts the capacity some schedule does reach the return of `Stop`.  At the
accepted worker count `2^32` the counter is 0 and the lifecycle with one
item reaches the return of `Stop` with the work function never called. -/
theorem stop_returns_with_every_item_worked_once :
    (∀ (maxChanCap intSize : Nat) (wf : WorkFunc) (opts : List OptionCall) (p : WorkerPool)
        (U : Type) (items : List U),
      NewWorkerPool (some wf) (opts.map (OptionCall.build intSize)) = .pool p →
      p.poolSize < 2 ^ 31 →
      (p.workChanBuffer ≤ (maxChanCap : Int) →
        ∃ acts r, exec maxChanCap items acts (boot p) = some r ∧ r.caller = .stopped) ∧
      (∀ acts r, exec maxChanCap items acts (boot p) = some r → r.caller = .stopped →
        (worked r.sys.trace).Perm items ∧ (worked r.sys.trace).length = items.length)) ∧
    (NewWorkerPool (some 7) [WithPoolSize (2 ^ 32)] = .pool
        { preworkFunc := none, postworkFunc := none, workFunc := some 7, poolSize := 2 ^ 32,
          workChan := none, workChanBuffer := 1, wg := 0 } ∧
      ∃ r, exec 1 ([5] : List Nat) [.caller, .caller, .caller, .caller]
          (boot { preworkFunc := none, postworkFunc := none, workFunc := some 7,
                  poolSize := 2 ^ 32, workChan := none, workChanBuffer := 1, wg := 0 }) =
          some r ∧
        r.caller = .stopped ∧ worked r.sys.trace = []) := by
  refine ⟨fun maxChanCap intSize wf opts p U items hnew hfit => ?_,
    newWorkerPool_size_two_pow_32 (some 7),
    ⟨_, early_return_one 1 _ 5 rfl (by decide) (by decide), rfl, rfl⟩⟩
  have hp := newWorkerPool_ready intSize wf opts p hnew hfit
  refine ⟨fun hcap => lifecycle_completes hp hcap items, fun acts r hex hst => ?_⟩
  obtain ⟨ch, ws, tr, hr, g⟩ := started_of_exec hp hex (by rw [hst]; simp)
  rw [hst] at hr g
  have hfin := (g.final hp).2.2.2.2.1
  rw [hr]
  exact ⟨hfin, hfin.length_eq⟩

/-- C3 at two workers, an unbuffered queue and three items: some schedule
reaches the return of `Stop`, with every item worked exactly once. -/
theorem stop_returns_with_every_item_worked_once_witness :
    ∃ acts r, exec 8 ([10, 20, 30] : List Nat) acts
        (boot { preworkFunc := none, postworkFunc := none, workFunc := some 7, poolSize := 2,
                workChan := none, workChanBuffer := 0, wg := 2 }) = some r ∧
      r.caller = .stopped ∧ (worked r.sys.trace).Perm [10, 20, 30] :=
  have h := stop_returns_with_every_item_worked_once.1 8 64 7
    [.withPoolSize 2, .withWorkChannelBuffer 0]
    { preworkFunc := none, postworkFunc := none, workFunc := some 7, poolSize := 2,
      workChan := none, workChanBuffer := 0, wg := 2 } Nat [10, 20, 30] (by decide) (by decide)
  match h.1 (by decide) with
  | ⟨acts, r, hex, hst⟩ => ⟨acts, r, hex, hst, (h.2 acts r hex hst).1⟩

/-- C4: for a pool constructed with a worker count below `2^31`: when `make`
accepts the capacity, `Start` launches exactly `poolSize` workers and some
schedule reaches the return of `Stop`; in every state of the lifecycle no
worker has called the pre-work hook twice, a worker that calls the work
function has called the pre-work hook before (when one is set), and the hook is
never called when it is nil; once `Stop` has returned, the hook (when set) has
been called exactly once by each of the `poolSize` workers.  At the accepted
capacity `math.MaxInt`, above what `make` accepts, `Start` faults and launches
no worker; at the accepted worker count `2^32` the lifecycle reaches the return
of `Stop` with the hook never called. -/
theorem prework_once_per_worker :
    (∀ (maxChanCap intSize : Nat) (wf : WorkFunc) (opts : List OptionCall) (p : WorkerPool)
        (U : Type) (items : List U),
      NewWorkerPool (some wf) (opts.map (OptionCall.build intSize)) = .pool p →
      p.poolSize < 2 ^ 31 →
      (p.workChanBuffer ≤ (maxChanCap : Int) →
        (Start maxChanCap (boot p : Run U).sys).1.workers =
          List.replicate p.poolSize.toNat .entry ∧
        ∃ acts r, exec maxChanCap items acts (boot p) = some r ∧ r.caller = .stopped) ∧
      (∀ acts r, exec maxChanCap items acts (boot p) = some r →
        (preworkers r.sys.trace).Nodup ∧
        (p.preworkFunc = none → preworkers r.sys.trace = []) ∧
        (∀ (newer older : List (Event U)) (i : Nat) (t : U),
          r.sys.trace = newer ++ .work i t :: older →
          p.preworkFunc.isSome = true → i ∈ preworkers older)) ∧
      (∀ acts r, exec maxChanCap items acts (boot p) = some r → r.caller = .stopped →
        p.preworkFunc.isSome = true →
        (preworkers r.sys.trace).Perm (List.range p.poolSize.toNat) ∧
        (preworkers r.sys.trace).length = p.poolSize.toNat)) ∧
    (∀ maxChanCap : Nat, (maxChanCap : Int) < MaxInt 64 →
      NewWorkerPool (some 7)
          [WithPreworkFunc (some 1), WithWorkChannelBuffer 64 9223372036854775807] = .pool
        { preworkFunc := some 1, postworkFunc := none, workFunc := some 7, poolSize := 25,
          workChan := none, workChanBuffer := 9223372036854775807, wg := 25 } ∧
      (Start maxChanCap (boot
          { preworkFunc := some 1, postworkFunc := none, workFunc := some 7, poolSize := 25,
            workChan := none, workChanBuffer := 9223372036854775807, wg := 25 }
          : Run Nat).sys).1 =
        { pool :=
            { preworkFunc := some 1, postworkFunc := none, workFunc := some 7, poolSize := 25,
              workChan := none, workChanBuffer := 9223372036854775807, wg := 25 }
          chans := []
          workers := []
          trace := []
          crashed := some .makeChanSize }) ∧
    (NewWorkerPool (some 7) [WithPreworkFunc (some 1), WithPoolSize (2 ^ 32)] = .pool
        { preworkFunc := some 1, postworkFunc := none, workFunc := some 7, poolSize := 2 ^ 32,
          workChan := none, workChanBuffer := 1, wg := 0 } ∧
      ∃ r, exec 1 ([] : List Nat) [.caller, .caller, .caller]
          (boot { preworkFunc := some 1, postworkFunc := none, workFunc := some 7,
                  poolSize := 2 ^ 32, workChan := none, workChanBuffer := 1, wg := 0 }) =
          some r ∧
        r.caller = .stopped ∧ preworkers r.sys.trace = [] ∧
        r.sys.workers = List.replicate (2 ^ 32 : Int).toNat .entry) := by
  refine ⟨fun maxChanCap intSize wf opts p U items hnew hfit => ?_,
    fun maxChanCap hlim => ⟨by decide, ?_⟩, ?_,
    ⟨_, early_return_none 1 _ rfl (by decide) (by decide), rfl, rfl, rfl⟩⟩
  · have hp := newWorkerPool_ready intSize wf opts p hnew hfit
    refine ⟨fun hcap => ⟨?_, lifecycle_completes hp hcap items⟩, fun acts r hex => ?_,
      fun acts r hex hst hpre => ?_⟩
    · have hb : ¬ (p.workChanBuffer < 0 ∨ (maxChanCap : Int) < p.workChanBuffer) := by
        have := hp.buffer
        omega
      simp [Start, boot, hb]
    · obtain ⟨h1, _, _, h4, h5, _⟩ := reached_facts hp hex
      refine ⟨h1, fun hnone => h5 (by rw [hnone]; rfl), fun newer older i t htr hset => ?_⟩
      rw [htr] at h4
      exact (ordered_suffix _ _ newer _ h4).1 hset
    · obtain ⟨ch, ws, tr, hr, g⟩ := started_of_exec hp hex (by rw [hst]; simp)
      rw [hst] at hr g
      have hfin := (g.final hp).2.2.2.2.2.2.1 hpre
      rw [hr]
      exact ⟨hfin, by
        show (preworkers tr).length = _
        rw [hfin.length_eq, List.length_range]⟩
  · have hmax : MaxInt 64 = 9223372036854775807 := by decide
    rw [hmax] at hlim
    have hb : ((9223372036854775807 : Int) < 0 ∨ (maxChanCap : Int) < 9223372036854775807) :=
      Or.inr hlim
    simp only [Start, boot, if_pos hb, State.crash]
  · have h32 : toInt32 4294967296 = 0 := by decide
    simp [NewWorkerPool, applyOptions, WithPreworkFunc, WithPoolSize, WaitGroup.Add, h32]

/-- C4 at two workers with a pre-work hook: some schedule reaches the return
of `Stop`, and there the hook has been called exactly twice, once by each
worker. -/
theorem prework_once_per_worker_witness :
    ∃ acts r, exec 8 ([10, 20] : List Nat) acts
        (boot { preworkFunc := some 1, postworkFunc := none, workFunc := some 7, poolSize := 2,
                workChan := none, workChanBuffer := 1, wg := 2 }) = some r ∧
      r.caller = .stopped ∧ (preworkers r.sys.trace).Perm [0, 1] ∧
      (preworkers r.sys.trace).length = 2 :=
  have h := prework_once_per_worker.1 8 64 7 [.withPoolSize 2, .withPreworkFunc (some 1)]
    { preworkFunc := some 1, postworkFunc := none, workFunc := some 7, poolSize := 2,
      workChan := none, workChanBuffer := 1, wg := 2 } Nat [10, 20] (by decide) (by decide)
  match (h.1 (by decide)).2 with
  | ⟨acts, r, hex, hst⟩ =>
    ⟨acts, r, hex, hst, (h.2.2 acts r hex hst rfl).1, (h.2.2 acts r hex hst rfl).2⟩

/-- C5: for a pool constructed with a worker count below `2^31`: construction
sets the completion counter to the worker count.  In every state of the
lifecycle the schedule so far is bounded, no worker has called `Done` twice, a
worker that calls `Done` has called the post-work hook before (when one is
set), and a worker that calls the work function or the post-work hook has not
called `Done` before, so `Done` comes after the worker's loop.  When `make`
accepts the capacity the lifecycle can run to the return of `Stop`, is never
stuck before that and never faults.  Once `Stop` has returned the counter is 0,
every one of the `poolSize` workers has ended and has called `Done` exactly
once and the post-work hook (when set) exactly once.  At the accepted worker
count `2^32` construction leaves the counter at 0, and `Stop` returns while
every worker launched is still at its entry and none has called `Done`. -/
theorem stop_joins_every_worker :
    (∀ (maxChanCap intSize : Nat) (wf : WorkFunc) (opts : List OptionCall) (p : WorkerPool)
        (U : Type) (items : List U),
      NewWorkerPool (some wf) (opts.map (OptionCall.build intSize)) = .pool p →
      p.poolSize < 2 ^ 31 →
      p.wg = p.poolSize ∧
      (p.workChanBuffer ≤ (maxChanCap : Int) →
        (∃ acts r, exec maxChanCap items acts (boot p) = some r ∧ r.caller = .stopped) ∧
        (∀ acts r, exec maxChanCap items acts (boot p) = some r →
          r.sys.crashed = none ∧
          (r.caller ≠ .stopped → ∃ a r1, step maxChanCap items a r = some r1))) ∧
      (∀ acts r, exec maxChanCap items acts (boot p) = some r →
        acts.length ≤ 3 * items.length + 6 * p.poolSize.toNat + 3 ∧
        (doners r.sys.trace).Nodup ∧ (postworkers r.sys.trace).Nodup ∧
        (p.postworkFunc = none → postworkers r.sys.trace = []) ∧
        (∀ (newer older : List (Event U)) (i : Nat),
          r.sys.trace = newer ++ .done i :: older →
          p.postworkFunc.isSome = true → i ∈ postworkers older) ∧
        (∀ (newer older : List (Event U)) (i : Nat) (t : U),
          r.sys.trace = newer ++ .work i t :: older → i ∉ doners older) ∧
        (∀ (newer older : List (Event U)) (i : Nat),
          r.sys.trace = newer ++ .postwork i :: older → i ∉ doners older)) ∧
      (∀ acts r, exec maxChanCap items acts (boot p) = some r → r.caller = .stopped →
        r.sys.pool.wg = 0 ∧
        r.sys.workers = List.replicate p.poolSize.toNat .exited ∧
        (doners r.sys.trace).Perm (List.range p.poolSize.toNat) ∧
        (p.postworkFunc.isSome = true →
          (postworkers r.sys.trace).Perm (List.range p.poolSize.toNat)))) ∧
    (NewWorkerPool (some 7) [WithPoolSize (2 ^ 32)] = .pool
        { preworkFunc := none, postworkFunc := none, workFunc := some 7, poolSize := 2 ^ 32,
          workChan := none, workChanBuffer := 1, wg := 0 } ∧
      ∃ r, exec 1 ([] : List Nat) [.caller, .caller, .caller]
          (boot { preworkFunc := none, postworkFunc := none, workFunc := some 7,
                  poolSize := 2 ^ 32, workChan := none, workChanBuffer := 1, wg := 0 }) =
          some r ∧
        r.caller = .stopped ∧ doners r.sys.trace = [] ∧
        r.sys.workers = List.replicate (2 ^ 32 : Int).toNat .entry) := by
  refine ⟨fun maxChanCap intSize wf opts p U items hnew hfit => ?_,
    newWorkerPool_size_two_pow_32 (some 7),
    ⟨_, early_return_none 1 _ rfl (by decide) (by decide), rfl, rfl, rfl⟩⟩
  have hp := newWorkerPool_ready intSize wf opts p hnew hfit
  refine ⟨hp.wg, fun hcap => ⟨lifecycle_completes hp hcap items, fun acts r hex =>
    ⟨exec_not_crashed hp hcap hex, exec_not_stuck hp hcap hex⟩⟩, fun acts r hex => ?_,
    fun acts r hex hst => ?_⟩
  · obtain ⟨_, h2, h3, h4, _, h6⟩ := reached_facts hp hex
    refine ⟨exec_length_le hp hex, h3, h2, fun hnone => h6 (by rw [hnone]; rfl),
      fun newer older i htr hset => ?_, fun newer older i t htr => ?_,
      fun newer older i htr => ?_⟩
    · rw [htr] at h4
      exact (ordered_suffix _ _ newer _ h4).1 hset
    · rw [htr] at h4
      exact (ordered_suffix _ _ newer _ h4).2.2.1
    · rw [htr] at h4
      exact (ordered_suffix _ _ newer _ h4).1
  · obtain ⟨ch, ws, tr, hr, g⟩ := started_of_exec hp hex (by rw [hst]; simp)
    rw [hst] at hr g
    obtain ⟨h1, h2, _, _, _, h6, _, h8⟩ := g.final hp
    rw [hr]
    refine ⟨?_, h1, h6, h8⟩
    show ((live ws : Nat) : Int) = 0
    rw [h2]
    rfl

/-- C5 at three workers with a post-work hook and one item: some schedule
reaches the return of `Stop`, and there every worker has ended and has called
the post-work hook and `Done` once. -/
theorem stop_joins_every_worker_witness :
    ∃ acts r, exec 8 ([10] : List Nat) acts
        (boot { preworkFunc := none, postworkFunc := some 2, workFunc := some 7, poolSize := 3,
                workChan := none, workChanBuffer := 1, wg := 3 }) = some r ∧
      r.caller = .stopped ∧ r.sys.workers = [.exited, .exited, .exited] ∧
      (doners r.sys.trace).Perm [0, 1, 2] ∧ (postworkers r.sys.trace).Perm [0, 1, 2] :=
  have h := stop_joins_every_worker.1 8 64 7 [.withPostWorkFunc (some 2), .withPoolSize 3]
    { preworkFunc := none, postworkFunc := some 2, workFunc := some 7, poolSize := 3,
      workChan := none, workChanBuffer := 1, wg := 3 } Nat [10] (by decide) (by decide)
  match (h.2.1 (by decide)).1 with
  | ⟨acts, r, hex, hst⟩ =>
    ⟨acts, r, hex, hst, (h.2.2.2 acts r hex hst).2.1, (h.2.2.2 acts r hex hst).2.2.1,
      (h.2.2.2 acts r hex hst).2.2.2 rfl⟩

/-- C9: `Stop` on a constructed pool that was never started faults on closing
the nil channel, and `Stop` on a pool whose `Stop` has already returned faults
on closing the closed channel; in both cases the call does not return. -/
theorem stop_without_start_or_twice_faults (maxChanCap intSize : Nat) (wf : WorkFunc)
    (opts : List OptionCall) (p : WorkerPool) (items : List T)
    (hnew : NewWorkerPool (some wf) (opts.map (OptionCall.build intSize)) = .pool p) :
    ((Stop (boot p : Run T).sys).1.crashed = some .closeNilChan ∧
      (Stop (boot p : Run T).sys).2 = false) ∧
    (∀ acts r, exec maxChanCap items acts (boot p) = some r → r.caller = .stopped →
      (Stop r.sys).1.crashed = some .closeClosedChan ∧ (Stop r.sys).2 = false) := by
  have hnil := (newWorkerPool_pool intSize (some wf) opts p hnew).2.1
  refine ⟨?_, fun acts r hex hst => ?_⟩
  · simp [Stop, closeWorkChan, boot, hnil, State.crash]
  · have hw := wired_exec acts (wired_boot maxChanCap p) hex
    obtain ⟨_, _, hw⟩ := hw
    simp only [hst] at hw
    obtain ⟨hchan, ⟨ch, hch, hcl⟩, _⟩ := hw
    simp [Stop, closeWorkChan, hchan, hch, hcl, State.crash]

/-- C9 at the pool of `NewWorkerPool(f)`. -/
theorem stop_without_start_or_twice_faults_witness :
    (Stop (boot { preworkFunc := none, postworkFunc := none, workFunc := some 7, poolSize := 25,
                  workChan := none, workChanBuffer := 1, wg := 25 } : Run Nat).sys).1.crashed =
        some .closeNilChan ∧
      (Stop (boot { preworkFunc := none, postworkFunc := none, workFunc := some 7,
                    poolSize := 25, workChan := none, workChanBuffer := 1, wg := 25 }
          : Run Nat).sys).2 = false :=
  (stop_without_start_or_twice_faults 8 64 7 []
    { preworkFunc := none, postworkFunc := none, workFunc := some 7, poolSize := 25,
      workChan := none, workChanBuffer := 1, wg := 25 } ([] : List Nat) (by decide)).1

/-- C10, as the code has it: `Start` called again on a pool that was already
started, before or after `Stop`, does not fault: it makes a second queue of the
configured capacity, points the pool at it, launches a further `poolSize`
workers and leaves the completion counter as it was; for a worker count below
`2^31`, where no fault has occurred and the counter was the number of
workers launched and not yet ended, those workers are afterwards `poolSize`
more than the counter. -/
theorem second_start_does_not_fault (maxChanCap intSize : Nat) (wf : WorkFunc)
    (opts : List OptionCall) (p : WorkerPool) (items : List T)
    (hnew : NewWorkerPool (some wf) (opts.map (OptionCall.build intSize)) = .pool p) :
    ∀ acts r, exec maxChanCap items acts (boot p) = some r → r.caller ≠ .created →
      (Start maxChanCap r.sys).1.crashed = r.sys.crashed ∧
      (p.poolSize < 2 ^ 31 → (Start maxChanCap r.sys).1.crashed = none) ∧
      (Start maxChanCap r.sys).1.chans = r.sys.chans ++
        [{ cap := p.workChanBuffer.toNat, buf := [], closed := false }] ∧
      (Start maxChanCap r.sys).1.chans.length = 2 ∧
      (Start maxChanCap r.sys).1.pool.workChan = some 1 ∧
      (Start maxChanCap r.sys).1.workers =
        r.sys.workers ++ List.replicate p.poolSize.toNat WorkerPc.entry ∧
      (Start maxChanCap r.sys).1.pool.wg = r.sys.pool.wg ∧
      (p.poolSize < 2 ^ 31 →
        (live (Start maxChanCap r.sys).1.workers : Int) =
          (Start maxChanCap r.sys).1.pool.wg + p.poolSize) := by
  intro acts r hex hc
  obtain ⟨hbuf, hsize, hw⟩ := wired_exec acts (wired_boot maxChanCap p) hex
  have hone : (∃ ch, r.sys.chans = [ch]) ∧ 0 ≤ p.workChanBuffer ∧
      p.workChanBuffer ≤ (maxChanCap : Int) := by
    cases hcl : r.caller with
    | created => exact absurd hcl hc
    | submitting wc k =>
      simp only [hcl] at hw
      exact ⟨hw.2.2.1, hw.2.2.2⟩
    | stopping =>
      simp only [hcl] at hw
      obtain ⟨_, ⟨ch, hch, _⟩, hacc⟩ := hw
      exact ⟨⟨ch, hch⟩, hacc⟩
    | stopped =>
      simp only [hcl] at hw
      obtain ⟨_, ⟨ch, hch, _⟩, hacc⟩ := hw
      exact ⟨⟨ch, hch⟩, hacc⟩
  obtain ⟨⟨ch, hch⟩, hb0, hb1⟩ := hone
  have hb : ¬ (r.sys.pool.workChanBuffer < 0 ∨ (maxChanCap : Int) < r.sys.pool.workChanBuffer) := by
    rw [hbuf]
    omega
  have hfitted : p.poolSize < 2 ^ 31 →
      r.sys.crashed = none ∧ (live r.sys.workers : Int) = r.sys.pool.wg ∧ 0 ≤ p.poolSize := by
    intro hfit
    have hp := newWorkerPool_ready intSize wf opts p hnew hfit
    obtain ⟨ch1, ws1, tr1, hr, _⟩ := started_of_exec hp hex hc
    rw [hr]
    exact ⟨rfl, rfl, by have := hp.size; omega⟩
  refine ⟨?_, fun hfit => ?_, ?_, ?_, ?_, ?_, ?_, fun hfit => ?_⟩
  · simp [Start, hb]
  · simp [Start, hb, (hfitted hfit).1]
  · have hb2 : ¬ (p.workChanBuffer < 0 ∨ (maxChanCap : Int) < p.workChanBuffer) := by omega
    simp [Start, hb2, hbuf]
  · simp [Start, hb, hch]
  · simp [Start, hb, hch]
  · simp [Start, hb, hsize]
  · simp [Start, hb]
  · obtain ⟨_, hl, h0⟩ := hfitted hfit
    have hsz : ((p.poolSize.toNat : Nat) : Int) = p.poolSize := Int.toNat_of_nonneg h0
    simp only [Start, hb, if_false, live_append, live_replicate, Nat.cast_add, hsize, hsz, hl]

/-- C10 as the code has it, at one worker, right after the first `Start`. -/
theorem second_start_does_not_fault_witness :
    (Start 8 (State.mk
        { preworkFunc := none, postworkFunc := none, workFunc := some 7, poolSize := 1,
          workChan := some 0, workChanBuffer := 1, wg := 1 }
        [{ cap := 1, buf := [], closed := false }] [WorkerPc.entry] ([] : List (Event Nat))
        none)).1.crashed = none ∧
    (live (Start 8 (State.mk
        { preworkFunc := none, postworkFunc := none, workFunc := some 7, poolSize := 1,
          workChan := some 0, workChanBuffer := 1, wg := 1 }
        [{ cap := 1, buf := [], closed := false }] [WorkerPc.entry] ([] : List (Event Nat))
        none)).1.workers : Int) = 1 + 1 :=
  have h := second_start_does_not_fault 8 64 7 [.withPoolSize 1]
    { preworkFunc := none, postworkFunc := none, workFunc := some 7, poolSize := 1,
      workChan := none, workChanBuffer := 1, wg := 1 } ([10] : List Nat) (by decide)
    [.caller]
    { caller := .submitting 0 0
      sys := State.mk
        { preworkFunc := none, postworkFunc := none, workFunc := some 7, poolSize := 1,
          workChan := some 0, workChanBuffer := 1, wg := 1 }
        [{ cap := 1, buf := [], closed := false }] [WorkerPc.entry] [] none }
    (by decide) (by decide)
  ⟨h.2.1 (by decide), h.2.2.2.2.2.2.2 (by decide)⟩

/-- C10, as stated, fails: on the pool of `NewWorkerPool(f, WithPoolSize(1))` a
second `Start` right after the first returns without a fault, with two queues,
two workers and the counter still 1; and a `Start` after a complete lifecycle
returns without a fault with a new worker launched and the counter at 0. -/
theorem second_start_launches_more_workers :
    NewWorkerPool (some 7) [WithPoolSize 1] = .pool
      { preworkFunc := none, postworkFunc := none, workFunc := some 7, poolSize := 1,
        workChan := none, workChanBuffer := 1, wg := 1 } ∧
    (Start 8 (Start 8 (boot
        { preworkFunc := none, postworkFunc := none, workFunc := some 7, poolSize := 1,
          workChan := none, workChanBuffer := 1, wg := 1 } : Run Nat).sys).1).1 =
      { pool := { preworkFunc := none, postworkFunc := none, workFunc := some 7, poolSize := 1,
                  workChan := some 1, workChanBuffer := 1, wg := 1 }
        chans := [{ cap := 1, buf := [], closed := false }, { cap := 1, buf := [], closed := false }]
        workers := [.entry, .entry]
        trace := []
        crashed := none } ∧
    (exec 8 ([] : List Nat)
        [.caller, .worker 0, .worker 0, .caller, .worker 0, .worker 0, .worker 0, .caller]
        (boot { preworkFunc := none, postworkFunc := none, workFunc := some 7, poolSize := 1,
                workChan := none, workChanBuffer := 1, wg := 1 })).map
        (fun r => (r.caller, (Start 8 r.sys).1.crashed, (Start 8 r.sys).1.workers,
          (Start 8 r.sys).1.pool.wg)) =
      some (.stopped, none, [.exited, .entry], 0) := by
  decide

end WorkerPools
